import Mathlib

/-!
Verification of the `Graph` / `Graph.DFS` subsystem of the GraphAnalyzer
repository (canonical version in `src/Scripts/Structure.js`, the rewrite that
uses `Stack` and `StrictMap` from `Modules/Extensions.js`).

The JavaScript object graph is shallowly embedded as follows:
* every `Graph.Vertex` object is identified by a numeric id (`VId`),
  allocated from the `nextId` counter of the owning `Graph`;
* the private field `Graph.#vertices : StrictMap<number, GraphVertex>` becomes
  the insertion-ordered association list `verts : List (Int × VId)`;
* the private field `Graph.#indices : StrictMap<GraphVertex, number>` becomes
  `idxs : List (VId × Int)`;
* the per-vertex field `GraphVertex.#neighbors : Set<GraphVertex>` becomes the
  heap-style map `nbrs : List (VId × List VId)` (JavaScript `Set` iterates in
  insertion order, hence the list model);
* JavaScript numbers that flow into index parameters are modelled as `ℚ`,
  so that the `Number.isInteger` validation (`q.isInt`) is meaningful;
  indices stored in the maps are always integers (`Int`);
* methods that may `throw` return a `Graph × Option JsError` pair (the state
  the caller observes after the call together with the error, mirroring the
  exact program points where the source mutates and throws) or an
  `Except JsError _` when the JavaScript object being built is fresh and
  unobservable after a throw (`import`, `getSubgraphWith`, DFS results).
-/

namespace GraphAnalyzer

/-- Vertex identity: stands for the reference identity of a
`Graph.Vertex` object. -/
abbrev VId := Nat

/-- The error values thrown by the source (`TypeError`, `EvalError`,
`RangeError`); only the kind and message are modelled. -/
inductive JsError where
  | typeErr : String → JsError
  | evalErr : String → JsError
deriving Repr, DecidableEq

/-- Modelled from the spec: `StrictMap` lookup (`StrictMap.ask`, returning the
value or `null`); the class lives in the absent `Modules/Extensions.js`.
Association-list lookup of the first (unique) entry with the given key. -/
def findA {α β : Type} [DecidableEq α] : List (α × β) → α → Option β
  | [], _ => none
  | p :: rest, k => if p.1 = k then some p.2 else findA rest k

/-- Modelled from the spec: `StrictMap.set` / JavaScript `Map.set`: overwrite
the entry in place when the key is present, append otherwise. -/
def setA {α β : Type} [DecidableEq α] : List (α × β) → α → β → List (α × β)
  | [], k, v => [(k, v)]
  | p :: rest, k, v => if p.1 = k then (k, v) :: rest else p :: setA rest k v

/-- Modelled from the spec: `StrictMap.delete` / JavaScript `Map.delete`. -/
def eraseA {α β : Type} [DecidableEq α] : List (α × β) → α → List (α × β)
  | [], _ => []
  | p :: rest, k => if p.1 = k then eraseA rest k else p :: eraseA rest k

/-- JavaScript `Set.add`: append unless already present. -/
def addSet {α : Type} [DecidableEq α] (l : List α) (x : α) : List α :=
  if x ∈ l then l else l ++ [x]

/-- JavaScript `Set.delete`. -/
def eraseSet {α : Type} [DecidableEq α] : List α → α → List α
  | [], _ => []
  | y :: rest, x => if y = x then eraseSet rest x else y :: eraseSet rest x

/-- Effectful map over a list in the `Except` monad (`Array.map` over a
throwing callback in the source): stop at the first failure. -/
def mapME {α β : Type} (f : α → Except JsError β) : List α → Except JsError (List β)
  | [] => .ok []
  | a :: rest =>
    match f a with
    | .error e => .error e
    | .ok b =>
      match mapME f rest with
      | .error e => .error e
      | .ok bs => .ok (b :: bs)

/-- Lookup in a neighbor-set heap: the neighbor list of the vertex object
`v`, empty when the object does not exist. -/
def nbAt (m : List (VId × List VId)) (v : VId) : List VId :=
  (findA m v).getD []

/-- The state of a `Graph` object: index map, inverse index map, the neighbor
sets of all owned `Graph.Vertex` objects, and the allocator for vertex
identities. -/
structure Graph where
  verts : List (Int × VId) := []
  idxs : List (VId × Int) := []
  nbrs : List (VId × List VId) := []
  nextId : VId := 0
deriving Repr, DecidableEq

namespace Graph

/-- `Graph.#getVertex` without the throw: the vertex bound to an index. -/
def getVertexI (g : Graph) (i : Int) : Option VId := findA g.verts i

/-- `Graph.#getIndex` without the throw: the index bound to a vertex. -/
def getIndexI (g : Graph) (v : VId) : Option Int := findA g.idxs v

/-- The neighbor set (`vertex.neighbors`) of the vertex object `v`. -/
def nbrsOf (g : Graph) (v : VId) : List VId := nbAt g.nbrs v

/-- The `vertices` getter: the set of live indices, in insertion order. -/
def vertexKeys (g : Graph) : List Int := g.verts.map (fun p => p.1)

/-- The vertex objects owned by the graph, in insertion order. -/
def liveIds (g : Graph) : List VId := g.verts.map (fun p => p.2)

end Graph

/-- `Graph.Vertex.connect`: fails when either vertex already lists the other,
then adds each to the other's neighbor set.  `none` models the
`EvalError` throw. -/
def connect (v1 v2 : VId) (m : List (VId × List VId)) :
    Option (List (VId × List VId)) :=
  if v2 ∈ nbAt m v1 ∨ v1 ∈ nbAt m v2 then none
  else
    let m1 := setA m v1 (addSet (nbAt m v1) v2)
    some (setA m1 v2 (addSet (nbAt m1 v2) v1))

/-- `Graph.Vertex.disconnect`: fails when the two vertices are not mutually
connected, then removes the mutual references. -/
def disconnect (v1 v2 : VId) (m : List (VId × List VId)) :
    Option (List (VId × List VId)) :=
  if v2 ∉ nbAt m v1 ∨ v1 ∉ nbAt m v2 then none
  else
    let m1 := setA m v1 (eraseSet (nbAt m v1) v2)
    some (setA m1 v2 (eraseSet (nbAt m1 v2) v1))

namespace Graph

/-- `Graph.#setVertex` as called from `addVertex`: reject an already-bound
index, otherwise create a fresh `Graph.Vertex` and record both map entries. -/
def addVertexCore : Graph → Int → Graph × Option JsError
  | ⟨vs, ix, nb, nid⟩, i =>
    if (findA vs i).isSome then
      (⟨vs, ix, nb, nid⟩, some (.evalErr "Vertex of index already exists"))
    else
      (⟨vs ++ [(i, nid)], ix ++ [(nid, i)], nb ++ [(nid, [])], nid + 1⟩, none)

/-- `Graph.addVertex(index)`: integer validation, then `#setVertex`. -/
def addVertex (g : Graph) (q : ℚ) : Graph × Option JsError :=
  if ¬ q.isInt then (g, some (.typeErr "Index is not finite integer number"))
  else g.addVertexCore q.num

/-- The loop body of `removeVertex`: disconnect the selected vertex from each
of its neighbors in turn, stopping at (and surfacing) the first failure with
the partially mutated state, exactly as the propagating JavaScript exception
would leave it. -/
def disconnectAll : Graph → VId → List VId → Graph × Option JsError
  | g, _, [] => (g, none)
  | ⟨vs, ix, nb, nid⟩, v, u :: rest =>
    match disconnect v u nb with
    | none => (⟨vs, ix, nb, nid⟩, some (.evalErr "Connection doesnt exists"))
    | some m => disconnectAll ⟨vs, ix, m, nid⟩ v rest

/-- `Graph.removeVertex` after the integer check: look the vertex up,
disconnect it from all neighbors, then delete both map entries (the
`Graph.Vertex` object itself becomes unreachable, so its `nbrs` entry is
dropped as well). -/
def removeVertexCore (g : Graph) (i : Int) : Graph × Option JsError :=
  match g.getVertexI i with
  | none => (g, some (.evalErr "Vertex with index doesnt exist"))
  | some v =>
    match g.disconnectAll v (g.nbrsOf v) with
    | (g', some e) => (g', some e)
    | (⟨vs, ix, nb, nid⟩, none) =>
      (⟨eraseA vs i, eraseA ix v, eraseA nb v, nid⟩, none)

/-- `Graph.removeVertex(index)`. -/
def removeVertex (g : Graph) (q : ℚ) : Graph × Option JsError :=
  if ¬ q.isInt then (g, some (.typeErr "Index is not finite integer number"))
  else g.removeVertexCore q.num

/-- `Graph.addEdge` after the two integer checks: normalize the pair with
`sort((a, b) => a - b)`, look both vertices up, then `Vertex.connect`
(rethrown as a connection-exists `EvalError`). -/
def addEdgeCore : Graph → Int → Int → Graph × Option JsError
  | ⟨vs, ix, nb, nid⟩, i, j =>
    let p := if i ≤ j then (i, j) else (j, i)
    match findA vs p.1 with
    | none => (⟨vs, ix, nb, nid⟩, some (.evalErr "Vertex with index doesnt exist"))
    | some vf =>
      match findA vs p.2 with
      | none =>
        (⟨vs, ix, nb, nid⟩, some (.evalErr "Vertex with index doesnt exist"))
      | some vt =>
        match connect vf vt nb with
        | none => (⟨vs, ix, nb, nid⟩, some (.evalErr "Connection already exists"))
        | some m => (⟨vs, ix, m, nid⟩, none)

/-- `Graph.addEdge(from, to)`. -/
def addEdge (g : Graph) (q r : ℚ) : Graph × Option JsError :=
  if ¬ q.isInt then (g, some (.typeErr "Index is not finite integer number"))
  else if ¬ r.isInt then
    (g, some (.typeErr "Index is not finite integer number"))
  else g.addEdgeCore q.num r.num

/-- `Graph.removeEdge` after the two integer checks. -/
def removeEdgeCore : Graph → Int → Int → Graph × Option JsError
  | ⟨vs, ix, nb, nid⟩, i, j =>
    let p := if i ≤ j then (i, j) else (j, i)
    match findA vs p.1 with
    | none => (⟨vs, ix, nb, nid⟩, some (.evalErr "Vertex with index doesnt exist"))
    | some vf =>
      match findA vs p.2 with
      | none =>
        (⟨vs, ix, nb, nid⟩, some (.evalErr "Vertex with index doesnt exist"))
      | some vt =>
        match disconnect vf vt nb with
        | none => (⟨vs, ix, nb, nid⟩, some (.evalErr "Connection doesnt exist"))
        | some m => (⟨vs, ix, m, nid⟩, none)

/-- `Graph.removeEdge(from, to)`. -/
def removeEdge (g : Graph) (q r : ℚ) : Graph × Option JsError :=
  if ¬ q.isInt then (g, some (.typeErr "Index is not finite integer number"))
  else if ¬ r.isInt then
    (g, some (.typeErr "Index is not finite integer number"))
  else g.removeEdgeCore q.num r.num

/-- `Graph.getNeighborsOf(index)`: integer validation, vertex lookup, then the
neighbor objects translated back to external indices and collected into a
`Set` (insertion-ordered, deduplicated). -/
def getNeighborsOfCore (g : Graph) (i : Int) : Except JsError (List Int) :=
  match g.getVertexI i with
  | none => .error (.evalErr "Vertex with index doesnt exist")
  | some v =>
    match mapME (fun u =>
      match g.getIndexI u with
      | none => Except.error (JsError.evalErr "Vertex doesnt exist")
      | some k => Except.ok k) (g.nbrsOf v) with
    | .error e => .error e
    | .ok ks => .ok (ks.foldl addSet [])

/-- `Graph.getNeighborsOf(index)` with its integer validation. -/
def getNeighborsOf (g : Graph) (q : ℚ) : Except JsError (List Int) :=
  if ¬ q.isInt then .error (.typeErr "Index is not finite integer number")
  else g.getNeighborsOfCore q.num

/-- `b ∈ getNeighborsOf(a)` as a boolean observation (false whenever the call
throws). -/
def memNbr (g : Graph) (a b : Int) : Bool :=
  match g.getNeighborsOf (a : ℚ) with
  | .ok l => b ∈ l
  | .error _ => false

end Graph

/-- Lift a state-and-error pair into `Except`, for call sites where the object
under construction is fresh and lost when the exception propagates. -/
def toExcept (p : Graph × Option JsError) : Except JsError Graph :=
  match p with
  | (g, none) => .ok g
  | (_, some e) => .error e

namespace Graph

/-- The inner loop of `getSubgraphWith`: for one source row `iFrom` (vertex
object `vf`), walk the later entries of the vertex array; on the first outer
iteration also add each target index as a subgraph vertex; copy each edge of
the original graph. -/
def subInner (g : Graph) (isFirst : Bool) (iFrom : Int) (vf : VId) :
    Graph → List Int → Except JsError Graph
  | sub, [] => .ok sub
  | sub, iTo :: rest =>
    match g.getVertexI iTo with
    | none => Except.error (JsError.evalErr "Vertex with index doesnt exist")
    | some vt =>
      match (if isFirst then toExcept (sub.addVertex (iTo : ℚ))
          else .ok sub : Except JsError Graph) with
      | .error e => .error e
      | .ok sub1 =>
        match (if vt ∈ g.nbrsOf vf
            then toExcept (sub1.addEdge (iFrom : ℚ) (iTo : ℚ))
            else .ok sub1 : Except JsError Graph) with
        | .error e => .error e
        | .ok sub2 => g.subInner isFirst iFrom vf sub2 rest

/-- The outer loop of `getSubgraphWith`. -/
def subOuter (g : Graph) : Bool → Graph → List Int → Except JsError Graph
  | _, sub, [] => .ok sub
  | isFirst, sub, iFrom :: rest =>
    match g.getVertexI iFrom with
    | none => Except.error (JsError.evalErr "Vertex with index doesnt exist")
    | some vf =>
      match (if isFirst then toExcept (sub.addVertex (iFrom : ℚ))
          else .ok sub : Except JsError Graph) with
      | .error e => .error e
      | .ok sub1 =>
        match g.subInner isFirst iFrom vf sub1 rest with
        | .error e => .error e
        | .ok sub2 => g.subOuter false sub2 rest

/-- `Graph.getSubgraphWith(vertices)`: the set argument is an insertion-ordered
deduplicated list of indices. -/
def getSubgraphWith (g : Graph) (s : List Int) : Except JsError Graph :=
  g.subOuter true {} s

end Graph

/-- The per-invocation traversal state of `Graph.DFS`: discovery-time counter,
low-link map, discovery-time map, DFS-tree parent map, the edge stack (top of
stack at the head) and the accumulated component edge lists. -/
structure DfsState where
  time : Nat := 0
  lowlinks : List (VId × Nat) := []
  visits : List (VId × Nat) := []
  parent : List (VId × VId) := []
  stack : List (VId × VId) := []
  paths : List (List (VId × VId)) := []
deriving Repr, DecidableEq

/-- Modelled from the spec: `StrictMap.get` (the class lives in the absent
`Modules/Extensions.js`); strict access, only ever called on present keys by
the traversal, defaulted here. -/
def mgetN (m : List (VId × Nat)) (k : VId) : Nat := (findA m k).getD 0

/-- The component-closing loop of `#walkDepthFirstExtended`: pop edges off the
stack down to and including the tree edge `e`, returning the popped edges
(top first) and the remaining stack. -/
def popUntil (e : VId × VId) :
    List (VId × VId) → List (VId × VId) × List (VId × VId)
  | [] => ([], [])
  | x :: rest =>
    if x = e then ([x], rest)
    else
      let pr := popUntil e rest
      (x :: pr.1, pr.2)

mutual

/-- `GraphDFS.#walkDepthFirstExtended(vertex)`: assign the discovery time and
initial low-link, then process the neighbor set.  `fuel` is a modelling
artifact that bounds the number of recursion steps (the source recursion
always terminates); callers pass `dfsFuel`, which the sufficiency lemmas
show is never exhausted.  States are destructured and rebuilt field by
field. -/
def walkExt (g : Graph) : Nat → DfsState → VId → DfsState
  | 0, st, _ => st
  | fuel + 1, ⟨t, ll, vis, par, stk, ph⟩, v =>
    walkExtLoop g fuel ⟨t + 1, setA ll v (t + 1), setA vis v (t + 1), par,
      stk, ph⟩ v 0 (g.nbrsOf v)

/-- The neighbor loop of `#walkDepthFirstExtended`, carrying the per-call
child counter.  For an unvisited neighbor: record the parent, push the tree
edge, recurse, tighten the low-link, and close off a component when the
articulation condition holds.  For a visited non-parent neighbor with a
smaller discovery time: tighten the low-link and push the back edge. -/
def walkExtLoop (g : Graph) :
    Nat → DfsState → VId → Nat → List VId → DfsState
  | _, st, _, _, [] => st
  | 0, st, _, _, _ :: _ => st
  | fuel + 1, ⟨t, ll, vis, par, stk, ph⟩, v, children, n :: rest =>
    if findA vis n = none then
      let children := children + 1
      match walkExt g fuel ⟨t, ll, vis, setA par n v, (v, n) :: stk, ph⟩ n
        with
      | ⟨t2, ll2, vis2, par2, stk2, ph2⟩ =>
        let ll3 :=
          if mgetN ll2 v > mgetN ll2 n then setA ll2 v (mgetN ll2 n) else ll2
        if (mgetN vis2 v = 1 ∧ children > 1) ∨
            (mgetN vis2 v > 1 ∧ mgetN ll3 n ≥ mgetN vis2 v) then
          match popUntil (v, n) stk2 with
          | (path, stk3) =>
            walkExtLoop g fuel ⟨t2, ll3, vis2, par2, stk3, ph2 ++ [path]⟩ v
              children rest
        else
          walkExtLoop g fuel ⟨t2, ll3, vis2, par2, stk2, ph2⟩ v children rest
    else
      if findA par v ≠ some n ∧ mgetN vis n < mgetN vis v then
        let ll2 :=
          if mgetN ll v > mgetN vis n then setA ll v (mgetN vis n) else ll
        walkExtLoop g fuel ⟨t, ll2, vis, par, (v, n) :: stk, ph⟩ v children
          rest
      else
        walkExtLoop g fuel ⟨t, ll, vis, par, stk, ph⟩ v children rest

end

mutual

/-- `GraphDFS.#walkDepthFirst(vertex)`: the plain traversal used by
`export`, without low-link or articulation bookkeeping. -/
def walkDF (g : Graph) : Nat → DfsState → VId → DfsState
  | 0, st, _ => st
  | fuel + 1, ⟨t, ll, vis, par, stk, ph⟩, v =>
    walkDFLoop g fuel ⟨t + 1, ll, setA vis v (t + 1), par, stk, ph⟩ v
      (g.nbrsOf v)

/-- The neighbor loop of `#walkDepthFirst`. -/
def walkDFLoop (g : Graph) : Nat → DfsState → VId → List VId → DfsState
  | _, st, _, [] => st
  | 0, st, _, _ :: _ => st
  | fuel + 1, ⟨t, ll, vis, par, stk, ph⟩, v, n :: rest =>
    if findA vis n = none then
      walkDFLoop g fuel
        (walkDF g fuel ⟨t, ll, vis, setA par n v, (v, n) :: stk, ph⟩ n) v rest
    else
      if findA par v ≠ some n ∧ mgetN vis n < mgetN vis v then
        walkDFLoop g fuel ⟨t, ll, vis, par, (v, n) :: stk, ph⟩ v rest
      else
        walkDFLoop g fuel ⟨t, ll, vis, par, stk, ph⟩ v rest

end

/-- A step budget that the sufficiency lemmas show is never exhausted: one
step per vertex entry plus one per neighbor-list element scanned. -/
def dfsFuel (g : Graph) : Nat :=
  g.verts.length + (g.nbrs.map (fun p => p.2.length)).sum + 1

/-- The root iteration of `GraphDFS.walkDepthFirst(graph)`: start a DFS at
every not-yet-visited vertex, in stored order. -/
def walkDFRoots (g : Graph) : DfsState → List VId → DfsState
  | st, [] => st
  | ⟨t, ll, vis, par, stk, ph⟩, v :: rest =>
    if (findA vis v).isSome then
      walkDFRoots g ⟨t, ll, vis, par, stk, ph⟩ rest
    else
      walkDFRoots g (walkDF g (dfsFuel g) ⟨t, ll, vis, par, stk, ph⟩ v) rest

/-- The root iteration of `GraphDFS.getBiconnectedComponents`: start an
extended DFS at every not-yet-visited vertex, and after every iteration flush
the remaining stacked edges (`Stack.clear`, bottom first) as one path. -/
def bicompRoots (g : Graph) : DfsState → List VId → DfsState
  | st, [] => st
  | ⟨t, ll, vis, par, stk, ph⟩, v :: rest =>
    match
      (if (findA vis v).isSome then ⟨t, ll, vis, par, stk, ph⟩
       else walkExt g (dfsFuel g) ⟨t, ll, vis, par, stk, ph⟩ v : DfsState)
      with
    | ⟨t2, ll2, vis2, par2, stk2, ph2⟩ =>
      bicompRoots g ⟨t2, ll2, vis2, par2, [], ph2 ++ [stk2.reverse]⟩ rest

/-- Flatten a path of edges into its endpoint list, `path.flat()`. -/
def flatPairs : List (VId × VId) → List VId
  | [] => []
  | e :: rest => e.1 :: e.2 :: flatPairs rest

namespace Graph

/-- `GraphDFS.walkDepthFirst(graph)`: run the plain traversal from every root
and translate the stacked edges back to external index pairs. -/
def walkDepthFirstIdx (g : Graph) : Except JsError (List (Int × Int)) :=
  let st := walkDFRoots g {} g.liveIds
  mapME (fun e =>
    match g.getIndexI e.1, g.getIndexI e.2 with
    | some i, some j => Except.ok (i, j)
    | _, _ => Except.error (JsError.evalErr "Vertex doesnt exist"))
    (st.stack.reverse)

/-- `GraphDFS.getBiconnectedComponents(graph)`: run the extended traversal,
keep the non-empty edge paths, and materialize each as the induced subgraph
on the (deduplicated) indices touched by the path. -/
def getBiconnectedComponents (g : Graph) : Except JsError (List Graph) :=
  let st := bicompRoots g {} g.liveIds
  mapME (fun path =>
    match mapME (fun u =>
      match g.getIndexI u with
      | none => Except.error (JsError.evalErr "Vertex doesnt exist")
      | some i => Except.ok i) (flatPairs path) with
    | .error e => .error e
    | .ok idxList => g.getSubgraphWith (idxList.foldl addSet []))
    (st.paths.filter (fun p => p.length > 0))

end Graph

/-- One `{ from, to }` entry of the wire format (`EdgeNotation` in the
source). -/
structure EdgeData where
  fromIdx : ℚ
  toIdx : ℚ
deriving Repr, DecidableEq

/-- The wire format (`GraphNotation` in the source): a vertex index list and a
connection list. -/
structure GraphData where
  vertices : List ℚ
  connections : List EdgeData
deriving Repr, DecidableEq

/-- The vertex-building loop of `Graph.import`. -/
def importVerts : List ℚ → Graph → Graph × Option JsError
  | [], g => (g, none)
  | q :: rest, g =>
    match g.addVertex q with
    | (g', none) => importVerts rest g'
    | (g', some e) => (g', some e)

/-- The edge-building loop of `Graph.import`. -/
def importEdges : List EdgeData → Graph → Graph × Option JsError
  | [], g => (g, none)
  | e :: rest, g =>
    match g.addEdge e.fromIdx e.toIdx with
    | (g', none) => importEdges rest g'
    | (g', some err) => (g', some err)

namespace Graph

/-- `Graph.import(source)`: build the vertices in listed order, then the
edges; any inner failure is wrapped into an outer `TypeError` and the
half-built graph is discarded. -/
def importGraph (n : GraphData) : Except JsError Graph :=
  match importVerts n.vertices {} with
  | (_, some _) => .error (.typeErr "Unable to import source")
  | (g, none) =>
    match importEdges n.connections g with
    | (_, some _) => .error (.typeErr "Unable to import source")
    | (g', none) => .ok g'

/-- `Graph.export()`: the live index set together with the depth-first edge
list. -/
def exportGraph (g : Graph) : Except JsError GraphData :=
  match g.walkDepthFirstIdx with
  | .error e => .error e
  | .ok conns =>
    .ok { vertices := g.vertexKeys.map (fun i : Int => (i : ℚ))
          connections :=
            conns.map (fun e => { fromIdx := (e.1 : ℚ), toIdx := (e.2 : ℚ) }) }

end Graph

/-- Build a graph through the public operations: `addVertex` for each index,
then `addEdge` for each pair, keeping the surviving state of every call. -/
def mkGraph (vs : List Int) (es : List (Int × Int)) : Graph :=
  let g := vs.foldl (fun g i => (g.addVertex (i : ℚ)).1) {}
  es.foldl (fun g e => (g.addEdge (e.1 : ℚ) (e.2 : ℚ)).1) g

/-- One public mutation of a `Graph`, for reachability statements. -/
inductive GOp where
  | addV (q : ℚ)
  | remV (q : ℚ)
  | addE (q r : ℚ)
  | remE (q r : ℚ)
deriving Repr

/-- The state a caller observes after issuing the operation (whether or not
it threw). -/
def applyOp (g : Graph) : GOp → Graph
  | .addV q => (g.addVertex q).1
  | .remV q => (g.removeVertex q).1
  | .addE q r => (g.addEdge q r).1
  | .remE q r => (g.removeEdge q r).1

/-- Run a sequence of public operations from a fresh `new Graph()`. -/
def buildOps (ops : List GOp) : Graph := ops.foldl applyOp {}

/-- A graph state is reachable when some sequence of public operations on a
fresh graph produces it (`Graph.import` itself issues exactly such
operations). -/
def Reachable (g : Graph) : Prop := ∃ ops, buildOps ops = g

/-- The structural well-formedness invariant of a `Graph` object: unique map
keys, the forward and inverse index maps are mutually inverse, every owned
vertex has a neighbor entry, neighbor lists are duplicate-free, reference
only owned vertices, and are mutual (the symmetry invariant), and all ids
are below the allocator. -/
def WF (g : Graph) : Prop :=
  (g.verts.map (fun p => p.1)).Nodup ∧
  g.liveIds.Nodup ∧
  (g.idxs.map (fun p => p.1)).Nodup ∧
  (g.nbrs.map (fun p => p.1)).Nodup ∧
  (∀ p ∈ g.verts, (p.2, p.1) ∈ g.idxs) ∧
  (∀ p ∈ g.idxs, (p.2, p.1) ∈ g.verts) ∧
  (∀ p ∈ g.nbrs, p.1 ∈ g.liveIds) ∧
  (∀ v ∈ g.liveIds, v ∈ g.nbrs.map (fun p => p.1)) ∧
  (∀ p ∈ g.nbrs, p.2.Nodup) ∧
  (∀ p ∈ g.nbrs, ∀ u ∈ p.2, u ∈ g.liveIds) ∧
  (∀ p ∈ g.nbrs, ∀ u ∈ p.2, p.1 ∈ g.nbrsOf u) ∧
  (∀ v ∈ g.liveIds, v < g.nextId)

/-- Every stacked edge and every recorded path edge of a traversal state is
an edge of the graph (read off the pushing vertex's neighbor set). -/
def EdgeStInv (g : Graph) (st : DfsState) : Prop :=
  (∀ e ∈ st.stack, e.2 ∈ g.nbrsOf e.1) ∧
  (∀ p ∈ st.paths, ∀ e ∈ p, e.2 ∈ g.nbrsOf e.1)

def covered (st : DfsState) (v u : VId) : Prop :=
  (v, u) ∈ st.stack ∨ (u, v) ∈ st.stack

def DoneV (g : Graph) (st : DfsState) (w : VId) : Prop :=
  ∀ u ∈ g.nbrsOf w, covered st w u

def TimeInv (st : DfsState) : Prop :=
  ∀ u k, findA st.visits u = some k → 1 ≤ k ∧ k ≤ st.time

def ParentInv (st : DfsState) (pending : Option VId) : Prop :=
  ∀ n p, findA st.parent n = some p →
    (p, n) ∈ st.stack ∧ (findA st.visits n ≠ none ∨ pending = some n)

def unvisCost (g : Graph) (vis : List (VId × Nat)) : Nat :=
  (g.nbrs.map (fun p =>
    if findA vis p.1 = none then p.2.length + 1 else 0)).sum

def DfsStep (g : Graph) (st st2 : DfsState) : Prop :=
  st.time ≤ st2.time ∧
  (∀ u k, findA st.visits u = some k → findA st2.visits u = some k) ∧
  (∀ e ∈ st.stack, e ∈ st2.stack) ∧
  (∀ u, findA st2.visits u ≠ none → findA st.visits u = none →
    DoneV g st2 u) ∧
  TimeInv st2 ∧ ParentInv st2 none

/-- Equality of two index lists as sets. -/
def sameElemsI (l1 l2 : List Int) : Bool :=
  l1.all (fun x => x ∈ l2) && l2.all (fun x => x ∈ l1)

/-- The graph has an edge between the two external indices. -/
def Graph.hasEdgeI (g : Graph) (i j : Int) : Bool :=
  match g.getVertexI i, g.getVertexI j with
  | some v, some w => w ∈ g.nbrsOf v
  | _, _ => false

/-- The edge set of the graph equals the listed unordered pairs. -/
def edgeSetIs (c : Graph) (es : List (Int × Int)) : Bool :=
  es.all (fun e => c.hasEdgeI e.1 e.2) &&
  c.vertexKeys.all (fun a => c.vertexKeys.all (fun b =>
    !(c.hasEdgeI a b) || ((a, b) ∈ es || (b, a) ∈ es)))

/-- The component subgraph has exactly the given vertex set and edge set. -/
def compIs (c : Graph) (vs : List Int) (es : List (Int × Int)) : Bool :=
  sameElemsI c.vertexKeys vs && edgeSetIs c es

/-- The decomposition result consists of exactly two components carrying the
two given vertex/edge sets, in either order. -/
def twoCompsCheck (r : Except JsError (List Graph)) (vs1 : List Int)
    (es1 : List (Int × Int)) (vs2 : List Int) (es2 : List (Int × Int)) :
    Bool :=
  match r with
  | .ok [c1, c2] =>
    (compIs c1 vs1 es1 && compIs c2 vs2 es2) ||
      (compIs c1 vs2 es2 && compIs c2 vs1 es1)
  | _ => false

instance {ε α : Type} [DecidableEq ε] [DecidableEq α] :
    DecidableEq (Except ε α) := fun x y =>
  match x, y with
  | .ok a, .ok b =>
    if h : a = b then isTrue (by rw [h]) else isFalse (by simp [h])
  | .error e, .error f =>
    if h : e = f then isTrue (by rw [h]) else isFalse (by simp [h])
  | .ok _, .error _ => isFalse (by simp)
  | .error _, .ok _ => isFalse (by simp)

instance (g : Graph) : Decidable (WF g) := by
  simp only [WF]
  infer_instance

/-- The bowtie scenario graph: two triangles sharing vertex 2. -/
def bowtie : Graph :=
  mkGraph [0, 1, 2, 3, 4] [(0, 1), (1, 2), (2, 0), (2, 3), (3, 4), (4, 2)]

/-- A single vertex with the self-loop that `addEdge(1, 1)` creates. -/
def selfLoopGraph : Graph := mkGraph [1] [(1, 1)]

/-- The wire object with a self-loop connection that `Graph.import`
accepts. -/
def selfLoopData : GraphData :=
  { vertices := [1], connections := [{ fromIdx := 1, toIdx := 1 }] }

/-- Two vertex-disjoint triangles, for the disconnected-graph scenario. -/
def twoTriangles : Graph :=
  mkGraph [0, 1, 2, 3, 4, 5] [(0, 1), (1, 2), (0, 2), (3, 4), (4, 5), (3, 5)]

/-!
## Theorems

First the association-list, set and `connect`/`disconnect` groundwork, then
the per-claim theorems.
-/

theorem findA_eq_none_iff {α β : Type} [DecidableEq α] (m : List (α × β))
    (k : α) : findA m k = none ↔ k ∉ m.map Prod.fst := by
  induction m with
  | nil => simp [findA]
  | cons p rest ih =>
    by_cases h : p.1 = k <;> simp [findA, h, ih, Ne.symm]

theorem findA_mem {α β : Type} [DecidableEq α] {m : List (α × β)} {k : α}
    {v : β} : findA m k = some v → (k, v) ∈ m := by
  induction m with
  | nil => intro h; simp [findA] at h
  | cons p rest ih =>
    intro h
    by_cases hp : p.1 = k
    · simp only [findA, hp, if_true, Option.some.injEq] at h
      have hpv : p = (k, v) := Prod.ext hp h
      rw [← hpv]
      exact List.mem_cons_self p rest
    · simp only [findA, hp, if_false] at h
      exact List.mem_cons_of_mem _ (ih h)

theorem findA_isSome_iff {α β : Type} [DecidableEq α] (m : List (α × β))
    (k : α) : (findA m k).isSome ↔ k ∈ m.map Prod.fst := by
  constructor
  · intro hs
    rcases Option.isSome_iff_exists.mp hs with ⟨v, hv⟩
    exact List.mem_map_of_mem Prod.fst (findA_mem hv)
  · intro hk
    cases hfa : findA m k with
    | some v => rfl
    | none => exact absurd hk ((findA_eq_none_iff m k).mp hfa)

theorem mem_findA {α β : Type} [DecidableEq α] {m : List (α × β)} {k : α}
    {v : β} : (m.map Prod.fst).Nodup → (k, v) ∈ m →
    findA m k = some v := by
  induction m with
  | nil => intro _ h; simp at h
  | cons p rest ih =>
    intro hn h
    simp only [List.map_cons, List.nodup_cons] at hn
    rcases List.mem_cons.mp h with h | h
    · rw [← h]
      simp [findA]
    · have hk : p.1 ≠ k := by
        intro hpk
        exact hn.1 (hpk ▸ (List.mem_map_of_mem Prod.fst h))
      simp only [findA, hk, if_false]
      exact ih hn.2 h

theorem findA_setA_self {α β : Type} [DecidableEq α] (m : List (α × β))
    (k : α) (v : β) : findA (setA m k v) k = some v := by
  induction m with
  | nil => simp [setA, findA]
  | cons p rest ih =>
    by_cases h : p.1 = k <;> simp [setA, findA, h, ih]

theorem findA_setA_ne {α β : Type} [DecidableEq α] (m : List (α × β))
    {k k' : α} (v : β) (h : k' ≠ k) :
    findA (setA m k v) k' = findA m k' := by
  have h' : ¬ k = k' := fun hk => h hk.symm
  induction m with
  | nil => simp [setA, findA, h']
  | cons p rest ih =>
    by_cases hp : p.1 = k
    · simp [setA, findA, hp, h']
    · by_cases hp' : p.1 = k' <;> simp [setA, findA, hp, hp', ih, h, h']

theorem keys_setA_of_mem {α β : Type} [DecidableEq α] {m : List (α × β)}
    {k : α} (v : β) : k ∈ m.map Prod.fst →
    (setA m k v).map Prod.fst = m.map Prod.fst := by
  induction m with
  | nil => intro h; simp at h
  | cons p rest ih =>
    intro h
    by_cases hp : p.1 = k
    · simp [setA, hp]
    · simp only [List.map_cons, List.mem_cons] at h
      rcases h with h | h
      · exact absurd h.symm hp
      · simp [setA, hp, ih h]

theorem keys_setA_of_notMem {α β : Type} [DecidableEq α] {m : List (α × β)}
    {k : α} (v : β) : k ∉ m.map Prod.fst →
    (setA m k v).map Prod.fst = m.map Prod.fst ++ [k] := by
  induction m with
  | nil => intro _; simp [setA]
  | cons p rest ih =>
    intro h
    simp only [List.map_cons, List.mem_cons] at h
    push_neg at h
    simp [setA, Ne.symm h.1, ih h.2]

theorem findA_eraseA_self {α β : Type} [DecidableEq α] (m : List (α × β))
    (k : α) : findA (eraseA m k) k = none := by
  induction m with
  | nil => simp [eraseA, findA]
  | cons p rest ih =>
    by_cases h : p.1 = k
    · simpa [eraseA, h] using ih
    · simpa [eraseA, h, findA] using ih

theorem findA_eraseA_ne {α β : Type} [DecidableEq α] (m : List (α × β))
    {k k' : α} (h : k' ≠ k) : findA (eraseA m k) k' = findA m k' := by
  induction m with
  | nil => simp [eraseA, findA]
  | cons p rest ih =>
    by_cases hp : p.1 = k
    · have hp' : ¬ p.1 = k' := by rw [hp]; exact fun hk => h hk.symm
      have h2 : ¬ k = k' := fun hk => h hk.symm
      simp [eraseA, hp, findA, hp', ih, h, h2]
    · have h2 : ¬ k = k' := fun hk => h hk.symm
      by_cases hp' : p.1 = k' <;>
        simp [eraseA, hp, findA, hp', ih, h, h2]

theorem keys_eraseA {α β : Type} [DecidableEq α] (m : List (α × β)) (k : α) :
    (eraseA m k).map Prod.fst = (m.map Prod.fst).filter (fun x => x ≠ k) := by
  induction m with
  | nil => simp [eraseA]
  | cons p rest ih =>
    by_cases hp : p.1 = k <;> simp [eraseA, List.filter_cons, hp, ih]

theorem mem_addSet_iff {α : Type} [DecidableEq α] (l : List α) (x y : α) :
    y ∈ addSet l x ↔ y ∈ l ∨ y = x := by
  by_cases h : x ∈ l
  · simp only [addSet, if_pos h]
    constructor
    · exact Or.inl
    · rintro (hy | rfl) <;> assumption
  · simp [addSet, if_neg h]

theorem addSet_of_notMem {α : Type} [DecidableEq α] {l : List α} {x : α}
    (h : x ∉ l) : addSet l x = l ++ [x] := by
  simp [addSet, h]

theorem addSet_of_mem {α : Type} [DecidableEq α] {l : List α} {x : α}
    (h : x ∈ l) : addSet l x = l := by
  simp [addSet, h]

theorem addSet_append_self {α : Type} [DecidableEq α] (l : List α) (x : α) :
    addSet (l ++ [x]) x = l ++ [x] :=
  addSet_of_mem (by simp)

theorem nodup_addSet {α : Type} [DecidableEq α] {l : List α} (x : α)
    (h : l.Nodup) : (addSet l x).Nodup := by
  by_cases hx : x ∈ l
  · simpa [addSet, hx] using h
  · simp [addSet, hx, List.nodup_append, h, List.disjoint_singleton, hx]

theorem eraseSet_eq_filter {α : Type} [DecidableEq α] (l : List α) (x : α) :
    eraseSet l x = l.filter (fun y => y ≠ x) := by
  induction l with
  | nil => simp [eraseSet]
  | cons z rest ih =>
    by_cases hz : z = x <;> simp [eraseSet, List.filter_cons, hz, ih]

theorem mem_eraseSet_iff {α : Type} [DecidableEq α] (l : List α) (x y : α) :
    y ∈ eraseSet l x ↔ y ∈ l ∧ y ≠ x := by
  rw [eraseSet_eq_filter]
  simp [List.mem_filter]

theorem nodup_eraseSet {α : Type} [DecidableEq α] (l : List α) (x : α)
    (h : l.Nodup) : (eraseSet l x).Nodup := by
  rw [eraseSet_eq_filter]
  exact List.Nodup.filter _ h

theorem nbAt_setA_self (m : List (VId × List VId)) (k : VId) (l : List VId) :
    nbAt (setA m k l) k = l := by
  simp [nbAt, findA_setA_self]

theorem nbAt_setA_ne (m : List (VId × List VId)) {x k : VId} {l : List VId}
    (h : x ≠ k) : nbAt (setA m k l) x = nbAt m x := by
  simp [nbAt, findA_setA_ne _ _ h]

theorem connect_eq_none_iff (v1 v2 : VId) (m : List (VId × List VId)) :
    connect v1 v2 m = none ↔ v2 ∈ nbAt m v1 ∨ v1 ∈ nbAt m v2 := by
  by_cases h : v2 ∈ nbAt m v1 ∨ v1 ∈ nbAt m v2 <;> simp [connect, h]

theorem connect_nbAt_ne {v1 v2 : VId} {m m' : List (VId × List VId)}
    (hne : v1 ≠ v2) (h : connect v1 v2 m = some m') :
    nbAt m' v1 = nbAt m v1 ++ [v2] ∧ nbAt m' v2 = nbAt m v2 ++ [v1] ∧
      ∀ x, x ≠ v1 → x ≠ v2 → nbAt m' x = nbAt m x := by
  unfold connect at h
  split at h
  · exact absurd h (by simp)
  · rename_i hg
    push_neg at hg
    have hm := Option.some.inj h
    subst hm
    refine ⟨?_, ?_, ?_⟩
    · simp only [nbAt_setA_ne _ hne, nbAt_setA_self,
        addSet_of_notMem hg.1]
    · simp only [nbAt_setA_self, nbAt_setA_ne _ (Ne.symm hne),
        addSet_of_notMem hg.1, addSet_of_notMem hg.2]
    · intro x hx1 hx2
      rw [nbAt_setA_ne _ hx2, nbAt_setA_ne _ hx1]

theorem connect_nbAt_self {v : VId} {m m' : List (VId × List VId)}
    (h : connect v v m = some m') :
    nbAt m' v = nbAt m v ++ [v] ∧ ∀ x, x ≠ v → nbAt m' x = nbAt m x := by
  unfold connect at h
  split at h
  · exact absurd h (by simp)
  · rename_i hg
    push_neg at hg
    have hm := Option.some.inj h
    subst hm
    refine ⟨?_, ?_⟩
    · simp only [nbAt_setA_self, addSet_of_notMem hg.1, addSet_append_self]
    · intro x hx
      rw [nbAt_setA_ne _ hx, nbAt_setA_ne _ hx]

theorem disconnect_eq_none_iff (v1 v2 : VId) (m : List (VId × List VId)) :
    disconnect v1 v2 m = none ↔ v2 ∉ nbAt m v1 ∨ v1 ∉ nbAt m v2 := by
  by_cases h : v2 ∉ nbAt m v1 ∨ v1 ∉ nbAt m v2 <;> simp [disconnect, h]

theorem eraseSet_idem {α : Type} [DecidableEq α] (l : List α) (x : α) :
    eraseSet (eraseSet l x) x = eraseSet l x := by
  simp only [eraseSet_eq_filter]
  rw [List.filter_filter]
  simp

theorem disconnect_nbAt_ne {v1 v2 : VId} {m m' : List (VId × List VId)}
    (hne : v1 ≠ v2) (h : disconnect v1 v2 m = some m') :
    nbAt m' v1 = eraseSet (nbAt m v1) v2 ∧
      nbAt m' v2 = eraseSet (nbAt m v2) v1 ∧
      ∀ x, x ≠ v1 → x ≠ v2 → nbAt m' x = nbAt m x := by
  unfold disconnect at h
  split at h
  · exact absurd h (by simp)
  · have hm := Option.some.inj h
    subst hm
    refine ⟨?_, ?_, ?_⟩
    · simp only [nbAt_setA_ne _ hne, nbAt_setA_self]
    · simp only [nbAt_setA_self, nbAt_setA_ne _ (Ne.symm hne)]
    · intro x hx1 hx2
      rw [nbAt_setA_ne _ hx2, nbAt_setA_ne _ hx1]

theorem disconnect_nbAt_self {v : VId} {m m' : List (VId × List VId)}
    (h : disconnect v v m = some m') :
    nbAt m' v = eraseSet (nbAt m v) v ∧
      ∀ x, x ≠ v → nbAt m' x = nbAt m x := by
  unfold disconnect at h
  split at h
  · exact absurd h (by simp)
  · have hm := Option.some.inj h
    subst hm
    refine ⟨?_, ?_⟩
    · simp only [nbAt_setA_self, eraseSet_idem]
    · intro x hx
      rw [nbAt_setA_ne _ hx, nbAt_setA_ne _ hx]

theorem connect_keys {v1 v2 : VId} {m m' : List (VId × List VId)}
    (h1 : v1 ∈ m.map Prod.fst) (h2 : v2 ∈ m.map Prod.fst)
    (h : connect v1 v2 m = some m') :
    m'.map Prod.fst = m.map Prod.fst := by
  unfold connect at h
  split at h
  · exact absurd h (by simp)
  · have hm := Option.some.inj h
    subst hm
    rw [keys_setA_of_mem _ (by rw [keys_setA_of_mem _ h1]; exact h2),
      keys_setA_of_mem _ h1]

theorem disconnect_keys {v1 v2 : VId} {m m' : List (VId × List VId)}
    (h1 : v1 ∈ m.map Prod.fst) (h2 : v2 ∈ m.map Prod.fst)
    (h : disconnect v1 v2 m = some m') :
    m'.map Prod.fst = m.map Prod.fst := by
  unfold disconnect at h
  split at h
  · exact absurd h (by simp)
  · have hm := Option.some.inj h
    subst hm
    rw [keys_setA_of_mem _ (by rw [keys_setA_of_mem _ h1]; exact h2),
      keys_setA_of_mem _ h1]

theorem isInt_intCast (n : Int) : ((n : ℚ)).isInt = true := by
  simp [Rat.isInt]

theorem num_intCast (n : Int) : ((n : ℚ)).num = n := by
  simp

theorem addVertex_int (g : Graph) (i : Int) :
    g.addVertex (i : ℚ) = g.addVertexCore i := by
  simp [Graph.addVertex, isInt_intCast]

theorem removeVertex_int (g : Graph) (i : Int) :
    g.removeVertex (i : ℚ) = g.removeVertexCore i := by
  simp [Graph.removeVertex, isInt_intCast]

theorem addEdge_int (g : Graph) (i j : Int) :
    g.addEdge (i : ℚ) (j : ℚ) = g.addEdgeCore i j := by
  simp [Graph.addEdge, isInt_intCast]

theorem removeEdge_int (g : Graph) (i j : Int) :
    g.removeEdge (i : ℚ) (j : ℚ) = g.removeEdgeCore i j := by
  simp [Graph.removeEdge, isInt_intCast]

theorem getNeighborsOf_int (g : Graph) (i : Int) :
    g.getNeighborsOf (i : ℚ) = g.getNeighborsOfCore i := by
  simp [Graph.getNeighborsOf, isInt_intCast]

theorem addEdgeCore_comm (g : Graph) (i j : Int) :
    g.addEdgeCore i j = g.addEdgeCore j i := by
  obtain ⟨vs, ix, nb, nid⟩ := g
  rcases le_or_lt i j with h | h
  · rcases eq_or_lt_of_le h with rfl | h'
    · rfl
    · simp [Graph.addEdgeCore, le_of_lt h', not_le.mpr h']
  · simp [Graph.addEdgeCore, le_of_lt h, not_le.mpr h]

/-- Vertices bound to distinct indices are distinct objects. -/
theorem vid_injective {g : Graph} (hWF : WF g) {i j : Int} {vi vj : VId}
    (hi : g.getVertexI i = some vi) (hj : g.getVertexI j = some vj)
    (hij : i ≠ j) : vi ≠ vj := by
  obtain ⟨-, hids, -⟩ := hWF
  intro hv
  subst hv
  have h1 : (i, vi) ∈ g.verts := findA_mem hi
  have h2 : (j, vi) ∈ g.verts := findA_mem hj
  have := List.inj_on_of_nodup_map hids h1 h2 rfl
  exact hij (congrArg Prod.fst this)

theorem addEdgeCore_pair {vs : List (Int × VId)} {ix : List (VId × Int)}
    {nb : List (VId × List VId)} {nid : VId} {g1 : Graph} {x y : Int}
    (hxy : x ≤ y)
    (h : Graph.addEdgeCore ⟨vs, ix, nb, nid⟩ x y = (g1, none)) :
    ∃ vf vt m, findA vs x = some vf ∧ findA vs y = some vt ∧
      connect vf vt nb = some m ∧ g1 = ⟨vs, ix, m, nid⟩ := by
  simp only [Graph.addEdgeCore, if_pos hxy] at h
  cases hf : findA vs x with
  | none =>
    simp only [hf] at h
    exact absurd (congrArg Prod.snd h) (by simp)
  | some vf =>
    simp only [hf] at h
    cases ht : findA vs y with
    | none =>
      simp only [ht] at h
      exact absurd (congrArg Prod.snd h) (by simp)
    | some vt =>
      simp only [ht] at h
      cases hc : connect vf vt nb with
      | none =>
        simp only [hc] at h
        exact absurd (congrArg Prod.snd h) (by simp)
      | some m =>
        simp only [hc] at h
        have hg : g1 = Graph.mk vs ix m nid := by
          have h1 := congrArg Prod.fst h
          simpa using h1.symm
        exact ⟨vf, vt, m, rfl, rfl, hc, hg⟩

theorem addEdgeCore_dup_sorted {g g1 : Graph} {i j : Int} (hWF : WF g)
    (hij : i ≠ j) (hle : i ≤ j) (h : g.addEdgeCore i j = (g1, none)) :
    ((g1.addEdgeCore i j).2).isSome = true := by
  obtain ⟨vs, ix, nb, nid⟩ := g
  obtain ⟨vf, vt, m, hf, ht, hc, hg1⟩ := addEdgeCore_pair hle h
  have hvne : vf ≠ vt := vid_injective hWF hf ht hij
  have hmem : vt ∈ nbAt m vf := by
    rw [(connect_nbAt_ne hvne hc).1]
    simp
  subst hg1
  simp only [Graph.addEdgeCore, if_pos hle, hf, ht,
    (connect_eq_none_iff _ _ _).mpr (Or.inl hmem)]
  rfl

theorem addEdgeCore_dup {g g1 : Graph} {i j : Int} (hWF : WF g)
    (hij : i ≠ j) (h : g.addEdgeCore i j = (g1, none)) :
    ((g1.addEdgeCore i j).2).isSome = true := by
  rcases le_or_lt i j with hle | hlt
  · exact addEdgeCore_dup_sorted hWF hij hle h
  · rw [addEdgeCore_comm] at h ⊢
    exact addEdgeCore_dup_sorted hWF (Ne.symm hij) (le_of_lt hlt) h

/-- C5: `addEdge` is order-independent in its unordered pair, so
`addEdge(a, b)` and `addEdge(b, a)` produce identical stored state, and once
`addEdge(a, b)` has succeeded, a subsequent `addEdge(b, a)` on the resulting
graph fails with a duplicate-connection error. -/
theorem claim_C5 (g : Graph) (a b : Int) (hWF : WF g) (hab : a ≠ b)
    (ha : (g.getVertexI a).isSome = true)
    (hb : (g.getVertexI b).isSome = true) :
    g.addEdge (a : ℚ) (b : ℚ) = g.addEdge (b : ℚ) (a : ℚ) ∧
      ((g.addEdge (a : ℚ) (b : ℚ)).2 = none →
        (((g.addEdge (a : ℚ) (b : ℚ)).1.addEdge (b : ℚ) (a : ℚ)).2).isSome =
          true) := by
  constructor
  · rw [addEdge_int, addEdge_int, addEdgeCore_comm]
  · intro hok
    rw [addEdge_int] at hok ⊢
    rw [addEdge_int]
    rw [addEdgeCore_comm ((g.addEdgeCore a b).1) b a]
    have h : g.addEdgeCore a b = ((g.addEdgeCore a b).1, none) := by
      rw [Prod.ext_iff]
      exact ⟨rfl, hok⟩
    exact addEdgeCore_dup hWF hab h

/-- Concrete use of `claim_C5`: on the two-vertex graph with indices 1 and 2,
the two orders of `addEdge` coincide and the duplicate is rejected. -/
theorem claim_C5_witness :
    WF (mkGraph [1, 2] []) ∧ (1 : Int) ≠ 2 ∧
      (((mkGraph [1, 2] []).addEdge ((1 : Int) : ℚ) ((2 : Int) : ℚ)).1.addEdge
          ((2 : Int) : ℚ) ((1 : Int) : ℚ)).2.isSome = true := by
  refine ⟨by decide, by decide, ?_⟩
  exact (claim_C5 (mkGraph [1, 2] []) 1 2 (by decide) (by decide) (by decide)
    (by decide)).2 (by decide)

theorem WF.nbrs_nodupAt {g : Graph} (hWF : WF g) (v : VId) :
    (g.nbrsOf v).Nodup := by
  obtain ⟨-, -, -, -, -, -, -, -, h9, -⟩ := hWF
  unfold Graph.nbrsOf nbAt
  cases hfa : findA g.nbrs v with
  | none => simp
  | some l => exact h9 _ (findA_mem hfa)

theorem WF.symmNb {g : Graph} (hWF : WF g) {a b : VId}
    (h : b ∈ g.nbrsOf a) : a ∈ g.nbrsOf b := by
  obtain ⟨-, -, -, -, -, -, -, -, -, -, h11, -⟩ := hWF
  unfold Graph.nbrsOf nbAt at h
  cases hfa : findA g.nbrs a with
  | none => rw [hfa] at h; simp at h
  | some l =>
    rw [hfa] at h
    exact h11 _ (findA_mem hfa) _ h

theorem WF.nb_live {g : Graph} (hWF : WF g) {a b : VId}
    (h : b ∈ g.nbrsOf a) : b ∈ g.liveIds ∧ a ∈ g.liveIds := by
  obtain ⟨-, -, -, -, -, -, h7, -, -, h10, -⟩ := hWF
  unfold Graph.nbrsOf nbAt at h
  cases hfa : findA g.nbrs a with
  | none => rw [hfa] at h; simp at h
  | some l =>
    rw [hfa] at h
    exact ⟨h10 _ (findA_mem hfa) _ h, h7 _ (findA_mem hfa)⟩

theorem notMem_foldl_eraseSet {α : Type} [DecidableEq α] {x : α} :
    ∀ (us : List α) (l : List α), x ∉ l → x ∉ us.foldl eraseSet l := by
  intro us
  induction us with
  | nil => intro l h; exact h
  | cons u rest ih =>
    intro l h
    exact ih _ (fun hx => h ((mem_eraseSet_iff l u x).mp hx).1)

/-- The full specification of the `removeVertex` disconnect loop on a
duplicate-free, mutually-linked snapshot of neighbors: it never throws, only
the `nbrs` field changes, the selected vertex is removed from every
neighbor's set, and every other neighbor set is untouched. -/
theorem disconnectAll_spec (v : VId) :
    ∀ (l : List VId) (g : Graph), l.Nodup →
    (∀ u ∈ l, u ∈ g.nbrsOf v) → (∀ u ∈ l, v ∈ g.nbrsOf u) →
    ∃ g', g.disconnectAll v l = (g', none) ∧
      g'.verts = g.verts ∧ g'.idxs = g.idxs ∧ g'.nextId = g.nextId ∧
      (∀ x, x ∉ l → x ≠ v → g'.nbrsOf x = g.nbrsOf x) ∧
      (∀ u ∈ l, u ≠ v → g'.nbrsOf u = eraseSet (g.nbrsOf u) v) ∧
      g'.nbrsOf v = l.foldl eraseSet (g.nbrsOf v) ∧
      (∀ u ∈ l, v ∉ g'.nbrsOf u) ∧
      g'.nbrs.map Prod.fst = g.nbrs.map Prod.fst := by
  intro l
  induction l with
  | nil =>
    intro g _ _ _
    exact ⟨g, by cases g <;> rfl, rfl, rfl, rfl,
      fun x _ _ => rfl, by simp, rfl, by simp, rfl⟩
  | cons u rest ih =>
    intro g hnd hmem hsym
    obtain ⟨vs, ix, nb, nid⟩ := g
    have hu1 : u ∈ nbAt nb v := hmem u (List.mem_cons_self u rest)
    have hu2 : v ∈ nbAt nb u := hsym u (List.mem_cons_self u rest)
    cases hd : disconnect v u nb with
    | none =>
      rw [disconnect_eq_none_iff] at hd
      rcases hd with hd | hd
      · exact absurd hu1 hd
      · exact absurd hu2 hd
    | some m =>
      have hnd' := (List.nodup_cons.mp hnd)
      have hnotin : u ∉ rest := hnd'.1
      -- the intermediate graph after the first disconnect
      have hint : ∀ x, x ≠ v → x ≠ u →
          nbAt m x = nbAt nb x := by
        intro x hxv hxu
        by_cases hvu : v = u
        · subst hvu
          exact (disconnect_nbAt_self hd).2 x hxv
        · exact (disconnect_nbAt_ne hvu hd).2.2 x hxv hxu
      have hintv : nbAt m v = eraseSet (nbAt nb v) u := by
        by_cases hvu : v = u
        · subst hvu
          exact (disconnect_nbAt_self hd).1
        · exact (disconnect_nbAt_ne hvu hd).1
      have hintu : u ≠ v → nbAt m u = eraseSet (nbAt nb u) v := by
        intro huv
        exact (disconnect_nbAt_ne (Ne.symm huv) hd).2.1
      have hrest1 : ∀ w ∈ rest, w ∈ Graph.nbrsOf ⟨vs, ix, m, nid⟩ v := by
        intro w hw
        show w ∈ nbAt m v
        rw [hintv, mem_eraseSet_iff]
        exact ⟨hmem w (List.mem_cons_of_mem _ hw),
          fun hwu => hnotin (hwu ▸ hw)⟩
      have hrest2 : ∀ w ∈ rest, v ∈ Graph.nbrsOf ⟨vs, ix, m, nid⟩ w := by
        intro w hw
        show v ∈ nbAt m w
        by_cases hwv : w = v
        · rw [hwv] at hw ⊢
          rw [hintv, mem_eraseSet_iff]
          exact ⟨hsym v (List.mem_cons_of_mem _ hw),
            fun hvu => hnotin (hvu ▸ hw)⟩
        · rw [hint w hwv (fun hwu => hnotin (hwu ▸ hw))]
          exact hsym w (List.mem_cons_of_mem _ hw)
      have hkeys : m.map Prod.fst = nb.map Prod.fst := by
        apply disconnect_keys _ _ hd
        · unfold nbAt at hu1
          cases hfa : findA nb v with
          | none => rw [hfa] at hu1; simp at hu1
          | some l1 => exact List.mem_map_of_mem Prod.fst (findA_mem hfa)
        · unfold nbAt at hu2
          cases hfa : findA nb u with
          | none => rw [hfa] at hu2; simp at hu2
          | some l2 => exact List.mem_map_of_mem Prod.fst (findA_mem hfa)
      obtain ⟨g', hrun, hv', hi', hn', hother, herase, hvfold, hnomem, hkeys'⟩ :=
        ih ⟨vs, ix, m, nid⟩ hnd'.2 hrest1 hrest2
      refine ⟨g', ?_, hv', hi', hn', ?_, ?_, ?_, ?_, by rw [hkeys']; exact hkeys⟩
      · show Graph.disconnectAll _ v (u :: rest) = (g', none)
        simp only [Graph.disconnectAll, hd]
        exact hrun
      · intro x hx hxv
        have hxu : x ≠ u := fun h => hx (h ▸ List.mem_cons_self u rest)
        rw [hother x (fun h => hx (List.mem_cons_of_mem _ h)) hxv]
        exact hint x hxv hxu
      · intro w hw hwv
        rcases List.mem_cons.mp hw with rfl | hw'
        · rw [hother w hnotin hwv]
          show nbAt m w = eraseSet (nbAt nb w) v
          exact hintu hwv
        · rw [herase w hw' hwv]
          show eraseSet (nbAt m w) v = eraseSet (nbAt nb w) v
          rw [hint w hwv (fun h => hnotin (h ▸ hw'))]
      · show g'.nbrsOf v = (u :: rest).foldl eraseSet (nbAt nb v)
        rw [List.foldl_cons, hvfold]
        show List.foldl eraseSet (nbAt m v) rest = _
        rw [hintv]
      · intro w hw
        rcases List.mem_cons.mp hw with rfl | hw'
        · by_cases hwv : w = v
          · rw [hwv, hvfold]
            apply notMem_foldl_eraseSet
            show v ∉ nbAt m v
            rw [hintv, mem_eraseSet_iff, hwv]
            simp
          · rw [hother w hnotin hwv]
            show v ∉ nbAt m w
            rw [hintu hwv, mem_eraseSet_iff]
            simp
        · exact hnomem w hw'

theorem mapME_ok_mem {α β : Type} {f : α → Except JsError β} :
    ∀ {l : List α} {ks : List β}, mapME f l = .ok ks →
      ∀ x ∈ ks, ∃ w ∈ l, f w = .ok x := by
  intro l
  induction l with
  | nil =>
    intro ks h x hx
    simp only [mapME] at h
    cases h
    simp at hx
  | cons a rest ih =>
    intro ks h x hx
    simp only [mapME] at h
    cases hfa : f a with
    | error e => rw [hfa] at h; cases h
    | ok b =>
      rw [hfa] at h
      cases hrest : mapME f rest with
      | error e => rw [hrest] at h; cases h
      | ok bs =>
        rw [hrest] at h
        cases h
        rcases List.mem_cons.mp hx with rfl | hx'
        · exact ⟨a, List.mem_cons_self a rest, hfa⟩
        · obtain ⟨w, hw, hfw⟩ := ih hrest x hx'
          exact ⟨w, List.mem_cons_of_mem _ hw, hfw⟩

theorem mem_foldl_addSet {α : Type} [DecidableEq α] :
    ∀ (ks acc : List α) (x : α),
      x ∈ ks.foldl addSet acc ↔ x ∈ acc ∨ x ∈ ks := by
  intro ks
  induction ks with
  | nil => intro acc x; simp
  | cons a rest ih =>
    intro acc x
    rw [List.foldl_cons, ih, mem_addSet_iff]
    constructor
    · rintro ((h | rfl) | h)
      · exact Or.inl h
      · exact Or.inr (List.mem_cons_self x rest)
      · exact Or.inr (List.mem_cons_of_mem _ h)
    · rintro (h | h)
      · exact Or.inl (Or.inl h)
      · rcases List.mem_cons.mp h with rfl | h'
        · exact Or.inl (Or.inr rfl)
        · exact Or.inr h'

theorem findA_append {α β : Type} [DecidableEq α] (m1 m2 : List (α × β))
    (k : α) :
    findA (m1 ++ m2) k =
      match findA m1 k with
      | some v => some v
      | none => findA m2 k := by
  induction m1 with
  | nil => simp [findA]
  | cons p rest ih =>
    by_cases hp : p.1 = k <;> simp [findA, hp, ih]

theorem eraseA_eq_filter {α β : Type} [DecidableEq α] (m : List (α × β))
    (k : α) : eraseA m k = m.filter (fun p => p.1 ≠ k) := by
  induction m with
  | nil => simp [eraseA]
  | cons p rest ih =>
    by_cases hp : p.1 = k <;> simp [eraseA, List.filter_cons, hp, ih]

theorem mem_eraseA_iff {α β : Type} [DecidableEq α] (m : List (α × β))
    (k : α) (p : α × β) : p ∈ eraseA m k ↔ p ∈ m ∧ p.1 ≠ k := by
  rw [eraseA_eq_filter]
  simp [List.mem_filter]

theorem eraseA_sublist {α β : Type} [DecidableEq α] (m : List (α × β))
    (k : α) : (eraseA m k).Sublist m := by
  rw [eraseA_eq_filter]
  exact List.filter_sublist m

theorem entry_eq_nbAt {m : List (VId × List VId)}
    (hnd : (m.map Prod.fst).Nodup) {p : VId × List VId} (hp : p ∈ m) :
    p.2 = nbAt m p.1 := by
  unfold nbAt
  rw [mem_findA hnd (by rw [← Prod.mk.eta (p := p)] at hp; exact hp)]
  rfl

/-- Every live vertex object has an index entry pointing back to its key. -/
theorem live_getIndex {g : Graph} (hWF : WF g) {u : VId}
    (hu : u ∈ g.liveIds) :
    ∃ i, g.getIndexI u = some i ∧ g.getVertexI i = some u := by
  obtain ⟨h1, -, h3, -, h5, -⟩ := hWF
  unfold Graph.liveIds at hu
  obtain ⟨p, hp, hpu⟩ := List.mem_map.mp hu
  refine ⟨p.1, ?_, ?_⟩
  · unfold Graph.getIndexI
    exact mem_findA h3 (by
      have := h5 p hp
      rw [hpu] at this
      exact this)
  · unfold Graph.getVertexI
    apply mem_findA h1
    rw [← hpu]
    exact (Prod.mk.eta (p := p)) ▸ hp

theorem getIndexI_of_getVertexI {g : Graph} (hWF : WF g) {i : Int} {v : VId}
    (h : g.getVertexI i = some v) : g.getIndexI v = some i := by
  obtain ⟨-, -, h3, -, h5, -⟩ := hWF
  exact mem_findA h3 (h5 _ (findA_mem h))

/-- An index entry `(v, i)` forces `i` to be bound exactly to `v`. -/
theorem getIndexI_inv {g : Graph} (hWF : WF g) {i : Int} {v : VId}
    (h : g.getIndexI v = some i) : g.getVertexI i = some v := by
  obtain ⟨h1, -, -, -, -, h6, -⟩ := hWF
  exact mem_findA h1 (h6 _ (findA_mem h))

theorem mapME_mem_fwd {α β : Type} {f : α → Except JsError β} :
    ∀ {l : List α} {ks : List β}, mapME f l = .ok ks →
      ∀ w ∈ l, ∀ x, f w = .ok x → x ∈ ks := by
  intro l
  induction l with
  | nil =>
    intro ks h w hw
    simp at hw
  | cons a rest ih =>
    intro ks h w hw x hfx
    simp only [mapME] at h
    cases hfa : f a with
    | error e => rw [hfa] at h; cases h
    | ok b =>
      rw [hfa] at h
      cases hrest : mapME f rest with
      | error e => rw [hrest] at h; cases h
      | ok bs =>
        rw [hrest] at h
        cases h
        rcases List.mem_cons.mp hw with rfl | hw'
        · rw [hfa] at hfx
          cases hfx
          exact List.mem_cons_self _ _
        · exact List.mem_cons_of_mem _ (ih hrest w hw' x hfx)

theorem mapME_ok_of_forall {α β : Type} {f : α → Except JsError β} :
    ∀ {l : List α}, (∀ w ∈ l, ∃ x, f w = .ok x) →
      ∃ ks, mapME f l = .ok ks := by
  intro l
  induction l with
  | nil => intro _; exact ⟨[], rfl⟩
  | cons a rest ih =>
    intro hall
    obtain ⟨b, hb⟩ := hall a (List.mem_cons_self a rest)
    obtain ⟨bs, hbs⟩ := ih (fun w hw => hall w (List.mem_cons_of_mem _ hw))
    exact ⟨b :: bs, by simp only [mapME, hb, hbs]⟩

/-- `b ∈ getNeighborsOf(a)` holds exactly when the vertex objects bound to
`a` and `b` exist and are neighbors. -/
theorem memNbr_true_iff {g : Graph} (hWF : WF g) (a b : Int) :
    g.memNbr a b = true ↔
      ∃ va vb, g.getVertexI a = some va ∧ g.getVertexI b = some vb ∧
        vb ∈ g.nbrsOf va := by
  unfold Graph.memNbr
  rw [getNeighborsOf_int]
  unfold Graph.getNeighborsOfCore
  cases hva : g.getVertexI a with
  | none =>
    simp only []
    constructor
    · intro h; cases h
    · rintro ⟨va, vb, hva', -⟩
      simp at hva'
  | some va =>
    simp only []
    have hsucc : ∀ w ∈ g.nbrsOf va, ∃ x,
        (match g.getIndexI w with
          | none => Except.error (JsError.evalErr "Vertex doesnt exist")
          | some k => Except.ok k) = .ok x := by
      intro w hw
      have hlive := (hWF.nb_live hw).1
      obtain ⟨i, hi, -⟩ := live_getIndex hWF hlive
      exact ⟨i, by rw [hi]⟩
    obtain ⟨ks, hks⟩ := mapME_ok_of_forall hsucc
    rw [hks]
    simp only [decide_eq_true_eq]
    rw [mem_foldl_addSet]
    constructor
    · rintro (h | h)
      · simp at h
      · obtain ⟨w, hw, hfw⟩ := mapME_ok_mem hks b h
        refine ⟨va, w, rfl, ?_, hw⟩
        cases hgw : g.getIndexI w with
        | none => rw [hgw] at hfw; cases hfw
        | some k =>
          rw [hgw] at hfw
          cases hfw
          exact getIndexI_inv hWF hgw
    · rintro ⟨va', vb, hva', hvb, hmem⟩
      have hvaeq := Option.some.inj hva'
      subst hvaeq
      right
      apply mapME_mem_fwd hks vb hmem
      rw [getIndexI_of_getVertexI hWF hvb]

theorem addVertex_atomic (g : Graph) (q : ℚ) :
    ((g.addVertex q).2).isSome = true → (g.addVertex q).1 = g := by
  obtain ⟨vs, ix, nb, nid⟩ := g
  intro h
  by_cases hq : q.isInt = true
  · simp only [Graph.addVertex, hq, not_true, if_false] at h ⊢
    by_cases hf : (findA vs q.num).isSome = true
    · simp only [Graph.addVertexCore, hf, if_true]
    · simp only [Graph.addVertexCore, hf, if_false, Bool.false_eq_true] at h
      simp at h
  · simp [Graph.addVertex, hq]

theorem removeVertex_atomic (g : Graph) (q : ℚ) (hWF : WF g) :
    ((g.removeVertex q).2).isSome = true → (g.removeVertex q).1 = g := by
  intro h
  by_cases hq : q.isInt = true
  · simp only [Graph.removeVertex, hq, not_true, if_false] at h ⊢
    cases hv : g.getVertexI q.num with
    | none => simp only [Graph.removeVertexCore, hv]
    | some v =>
      obtain ⟨g', hrun, -⟩ := disconnectAll_spec v (g.nbrsOf v) g
        (hWF.nbrs_nodupAt v) (fun u hu => hu) (fun u hu => hWF.symmNb hu)
      obtain ⟨vs2, ix2, nb2, nid2⟩ := g'
      simp only [Graph.removeVertexCore, hv, hrun] at h
      simp at h
  · simp [Graph.removeVertex, hq]

theorem addEdgeCore_atomic (g : Graph) (i j : Int) :
    ((g.addEdgeCore i j).2).isSome = true → (g.addEdgeCore i j).1 = g := by
  obtain ⟨vs, ix, nb, nid⟩ := g
  intro h
  simp only [Graph.addEdgeCore] at h ⊢
  cases hf : findA vs (if i ≤ j then (i, j) else (j, i)).1 with
  | none => simp [hf]
  | some vf =>
    simp only [hf] at h ⊢
    cases ht : findA vs (if i ≤ j then (i, j) else (j, i)).2 with
    | none => simp [ht]
    | some vt =>
      simp only [ht] at h ⊢
      cases hc : connect vf vt nb with
      | none => simp [hc]
      | some m =>
        simp only [hc] at h
        simp at h

theorem addEdge_atomic (g : Graph) (q r : ℚ) :
    ((g.addEdge q r).2).isSome = true → (g.addEdge q r).1 = g := by
  intro h
  by_cases hq : q.isInt = true
  · by_cases hr : r.isInt = true
    · simp only [Graph.addEdge, hq, hr, not_true, if_false] at h ⊢
      exact addEdgeCore_atomic _ _ _ h
    · simp [Graph.addEdge, hq, hr]
  · simp [Graph.addEdge, hq]

theorem removeEdgeCore_atomic (g : Graph) (i j : Int) :
    ((g.removeEdgeCore i j).2).isSome = true → (g.removeEdgeCore i j).1 = g := by
  obtain ⟨vs, ix, nb, nid⟩ := g
  intro h
  simp only [Graph.removeEdgeCore] at h ⊢
  cases hf : findA vs (if i ≤ j then (i, j) else (j, i)).1 with
  | none => simp [hf]
  | some vf =>
    simp only [hf] at h ⊢
    cases ht : findA vs (if i ≤ j then (i, j) else (j, i)).2 with
    | none => simp [ht]
    | some vt =>
      simp only [ht] at h ⊢
      cases hc : disconnect vf vt nb with
      | none => simp [hc]
      | some m =>
        simp only [hc] at h
        simp at h

theorem removeEdge_atomic (g : Graph) (q r : ℚ) :
    ((g.removeEdge q r).2).isSome = true → (g.removeEdge q r).1 = g := by
  intro h
  by_cases hq : q.isInt = true
  · by_cases hr : r.isInt = true
    · simp only [Graph.removeEdge, hq, hr, not_true, if_false] at h ⊢
      exact removeEdgeCore_atomic _ _ _ h
    · simp [Graph.removeEdge, hq, hr]
  · simp [Graph.removeEdge, hq]

/-- C10: atomicity on error.  Whenever `addVertex`, `removeVertex`,
`addEdge` or `removeEdge` throws (non-integer index, unbound index,
duplicate vertex or edge, missing edge), the observable graph state is
exactly the state before the call: every throw happens before the first
mutation. -/
theorem claim_C10 (g : Graph) (hWF : WF g) :
    (∀ q : ℚ, ((g.addVertex q).2).isSome = true → (g.addVertex q).1 = g) ∧
      (∀ q : ℚ,
        ((g.removeVertex q).2).isSome = true → (g.removeVertex q).1 = g) ∧
      (∀ q r : ℚ,
        ((g.addEdge q r).2).isSome = true → (g.addEdge q r).1 = g) ∧
      (∀ q r : ℚ,
        ((g.removeEdge q r).2).isSome = true → (g.removeEdge q r).1 = g) :=
  ⟨fun q => addVertex_atomic g q,
    fun q => removeVertex_atomic g q hWF,
    fun q r => addEdge_atomic g q r,
    fun q r => removeEdge_atomic g q r⟩

/-- Concrete use of `claim_C10`: a failing `removeVertex` on a one-edge
graph leaves the state untouched. -/
theorem claim_C10_witness :
    ((mkGraph [1, 2] [(1, 2)]).removeVertex (5 : ℚ)).1 =
      mkGraph [1, 2] [(1, 2)] := by
  exact (claim_C10 (mkGraph [1, 2] [(1, 2)]) (by decide)).2.1 (5 : ℚ)
    (by decide)

/-- C8: removal cascade.  For every well-formed graph and bound index `v`,
`removeVertex(v)` succeeds, removes `v` from the vertex set, and afterwards
no former neighbor `u` of `v` still lists `v` in `getNeighborsOf(u)`. -/
theorem claim_C8 (g : Graph) (v : Int) (hWF : WF g)
    (hv : (g.getVertexI v).isSome = true) :
    (g.removeVertex (v : ℚ)).2 = none ∧
      v ∉ ((g.removeVertex (v : ℚ)).1).vertexKeys ∧
      ∀ u : Int, g.memNbr u v = true →
        ((g.removeVertex (v : ℚ)).1).memNbr u v = false := by
  rw [removeVertex_int]
  obtain ⟨vid, hvid⟩ := Option.isSome_iff_exists.mp hv
  obtain ⟨g1, hrun, hverts, hidxs, hnid, hother, herase, hvfold, hnomem,
    hkeys⟩ :=
    disconnectAll_spec vid (g.nbrsOf vid) g (hWF.nbrs_nodupAt vid)
      (fun u hu => hu) (fun u hu => hWF.symmNb hu)
  obtain ⟨vs1, ix1, nb1, nid1⟩ := g1
  have hvs1 : vs1 = g.verts := hverts
  have hix1 : ix1 = g.idxs := hidxs
  have hred : g.removeVertexCore v =
      (⟨eraseA vs1 v, eraseA ix1 vid, eraseA nb1 vid, nid1⟩, none) := by
    simp only [Graph.removeVertexCore, hvid, hrun]
  rw [hred]
  refine ⟨rfl, ?_, ?_⟩
  · show v ∉ (eraseA vs1 v).map Prod.fst
    rw [keys_eraseA]
    intro hmem
    have := (List.mem_filter.mp hmem).2
    simp at this
  · intro u hmemNbr
    obtain ⟨vu, vv, hvu, hvv, hmem⟩ := (memNbr_true_iff hWF u v).mp hmemNbr
    rw [hvid] at hvv
    have hvveq := Option.some.inj hvv
    subst hvveq
    by_cases huv : u = v
    · subst huv
      unfold Graph.memNbr
      rw [getNeighborsOf_int]
      unfold Graph.getNeighborsOfCore
      have hnone : Graph.getVertexI
          ⟨eraseA vs1 u, eraseA ix1 vid, eraseA nb1 vid, nid1⟩ u = none := by
        show findA (eraseA vs1 u) u = none
        exact findA_eraseA_self _ _
      simp only [hnone]
    · have hvune : vu ≠ vid := vid_injective hWF hvu hvid huv
      have hsnap : vu ∈ g.nbrsOf vid := hWF.symmNb hmem
      cases hres : Graph.memNbr
          ⟨eraseA vs1 v, eraseA ix1 vid, eraseA nb1 vid, nid1⟩ u v with
      | false => rfl
      | true =>
        exfalso
        unfold Graph.memNbr at hres
        rw [getNeighborsOf_int] at hres
        unfold Graph.getNeighborsOfCore at hres
        have hRu : Graph.getVertexI
            ⟨eraseA vs1 v, eraseA ix1 vid, eraseA nb1 vid, nid1⟩ u = some vu := by
          show findA (eraseA vs1 v) u = some vu
          rw [findA_eraseA_ne _ huv, hvs1]
          exact hvu
        simp only [hRu] at hres
        cases hmap : mapME (fun w =>
            match Graph.getIndexI
              ⟨eraseA vs1 v, eraseA ix1 vid, eraseA nb1 vid, nid1⟩ w with
            | none => Except.error (JsError.evalErr "Vertex doesnt exist")
            | some k => Except.ok k)
            (Graph.nbrsOf
              ⟨eraseA vs1 v, eraseA ix1 vid, eraseA nb1 vid, nid1⟩ vu) with
        | error e => rw [hmap] at hres; cases hres
        | ok ks =>
          rw [hmap] at hres
          simp only [decide_eq_true_eq] at hres
          rw [mem_foldl_addSet] at hres
          rcases hres with hres | hres
          · simp at hres
          · obtain ⟨w, hw, hfw⟩ := mapME_ok_mem hmap v hres
            have hwv : Graph.getIndexI
                ⟨eraseA vs1 v, eraseA ix1 vid, eraseA nb1 vid, nid1⟩ w =
                some v := by
              cases hgw : Graph.getIndexI
                  ⟨eraseA vs1 v, eraseA ix1 vid, eraseA nb1 vid, nid1⟩ w with
              | none =>
                simp only [hgw] at hfw
                cases hfw
              | some k =>
                simp only [hgw] at hfw
                cases hfw
                rfl
            have hwent : (w, v) ∈ eraseA ix1 vid := findA_mem hwv
            rw [mem_eraseA_iff] at hwent
            have hwix : (w, v) ∈ g.idxs := hix1 ▸ hwent.1
            have hwvid : g.getVertexI v = some w := getIndexI_inv hWF
              (mem_findA (by
                obtain ⟨-, -, h3, -⟩ := hWF
                exact h3) hwix)
            rw [hvid] at hwvid
            exact hwent.2 (Option.some.inj hwvid).symm

/-- Concrete use of `claim_C8`: removing vertex 1 from the one-edge graph
erases the edge from vertex 2's neighbor set. -/
theorem claim_C8_witness :
    ((mkGraph [1, 2] [(1, 2)]).removeVertex ((1 : Int) : ℚ)).2 = none ∧
      ((mkGraph [1, 2] [(1, 2)]).removeVertex ((1 : Int) : ℚ)).1.memNbr 2 1 =
        false := by
  obtain ⟨h1, -, h3⟩ := claim_C8 (mkGraph [1, 2] [(1, 2)]) 1 (by decide)
    (by decide)
  exact ⟨h1, h3 2 (by decide)⟩

theorem connect_mem_nbAt {v1 v2 : VId} {m m' : List (VId × List VId)}
    (h : connect v1 v2 m = some m') (x u : VId) :
    u ∈ nbAt m' x ↔
      u ∈ nbAt m x ∨ (x = v1 ∧ u = v2) ∨ (x = v2 ∧ u = v1) := by
  by_cases h12 : v1 = v2
  · subst h12
    obtain ⟨h1, h2⟩ := connect_nbAt_self h
    by_cases hx : x = v1
    · subst hx
      rw [h1]
      simp only [List.mem_append, List.mem_singleton]
      aesop
    · rw [h2 x hx]
      aesop
  · obtain ⟨h1, h2, h3⟩ := connect_nbAt_ne h12 h
    by_cases hx1 : x = v1
    · subst hx1
      rw [h1]
      simp only [List.mem_append, List.mem_singleton]
      aesop
    · by_cases hx2 : x = v2
      · subst hx2
        rw [h2]
        simp only [List.mem_append, List.mem_singleton]
        aesop
      · rw [h3 x hx1 hx2]
        aesop

theorem disconnect_mem_nbAt {v1 v2 : VId} {m m' : List (VId × List VId)}
    (h : disconnect v1 v2 m = some m') (x u : VId) :
    u ∈ nbAt m' x ↔
      u ∈ nbAt m x ∧ ¬(x = v1 ∧ u = v2) ∧ ¬(x = v2 ∧ u = v1) := by
  by_cases h12 : v1 = v2
  · subst h12
    obtain ⟨h1, h2⟩ := disconnect_nbAt_self h
    by_cases hx : x = v1
    · subst hx
      rw [h1, mem_eraseSet_iff]
      aesop
    · rw [h2 x hx]
      aesop
  · obtain ⟨h1, h2, h3⟩ := disconnect_nbAt_ne h12 h
    by_cases hx1 : x = v1
    · subst hx1
      rw [h1, mem_eraseSet_iff]
      aesop
    · by_cases hx2 : x = v2
      · subst hx2
        rw [h2, mem_eraseSet_iff]
        aesop
      · rw [h3 x hx1 hx2]
        aesop

theorem connect_nbAt_nodup {v1 v2 : VId} {m m' : List (VId × List VId)}
    (h : connect v1 v2 m = some m') (hnd : ∀ x, (nbAt m x).Nodup) :
    ∀ x, (nbAt m' x).Nodup := by
  have hg : ¬(v2 ∈ nbAt m v1 ∨ v1 ∈ nbAt m v2) := by
    intro hg
    rw [(connect_eq_none_iff v1 v2 m).mpr hg] at h
    cases h
  push_neg at hg
  intro x
  by_cases h12 : v1 = v2
  · rw [← h12] at h hg
    obtain ⟨h1, h2⟩ := connect_nbAt_self h
    by_cases hx : x = v1
    · rw [hx, h1, ← addSet_of_notMem hg.1]
      exact nodup_addSet _ (hnd v1)
    · rw [h2 x hx]
      exact hnd x
  · obtain ⟨h1, h2, h3⟩ := connect_nbAt_ne h12 h
    by_cases hx1 : x = v1
    · rw [hx1, h1, ← addSet_of_notMem hg.1]
      exact nodup_addSet _ (hnd v1)
    · by_cases hx2 : x = v2
      · rw [hx2, h2, ← addSet_of_notMem hg.2]
        exact nodup_addSet _ (hnd v2)
      · rw [h3 x hx1 hx2]
        exact hnd x

theorem disconnect_nbAt_nodup {v1 v2 : VId} {m m' : List (VId × List VId)}
    (h : disconnect v1 v2 m = some m') (hnd : ∀ x, (nbAt m x).Nodup) :
    ∀ x, (nbAt m' x).Nodup := by
  intro x
  by_cases h12 : v1 = v2
  · rw [← h12] at h
    obtain ⟨h1, h2⟩ := disconnect_nbAt_self h
    by_cases hx : x = v1
    · rw [hx, h1]
      exact nodup_eraseSet _ _ (hnd v1)
    · rw [h2 x hx]
      exact hnd x
  · obtain ⟨h1, h2, h3⟩ := disconnect_nbAt_ne h12 h
    by_cases hx1 : x = v1
    · rw [hx1, h1]
      exact nodup_eraseSet _ _ (hnd v1)
    · by_cases hx2 : x = v2
      · rw [hx2, h2]
        exact nodup_eraseSet _ _ (hnd v2)
      · rw [h3 x hx1 hx2]
        exact hnd x

theorem nbAt_eraseA_ne {m : List (VId × List VId)} {x k : VId} (h : x ≠ k) :
    nbAt (eraseA m k) x = nbAt m x := by
  unfold nbAt
  rw [findA_eraseA_ne _ h]

theorem nbAt_eraseA_self (m : List (VId × List VId)) (k : VId) :
    nbAt (eraseA m k) k = [] := by
  unfold nbAt
  rw [findA_eraseA_self]
  rfl

/-- Replacing only the neighbor map of a well-formed graph preserves
well-formedness, given the key set, duplicate-freedom, liveness and symmetry
of the new map. -/
theorem WF_update_nbrs {vs : List (Int × VId)} {ix : List (VId × Int)}
    {nb m' : List (VId × List VId)} {nid : VId}
    (hWF : WF ⟨vs, ix, nb, nid⟩)
    (hkeys : m'.map Prod.fst = nb.map Prod.fst)
    (hnodup : ∀ x, (nbAt m' x).Nodup)
    (hlive : ∀ x u, u ∈ nbAt m' x →
      u ∈ Graph.liveIds ⟨vs, ix, nb, nid⟩)
    (hsymm : ∀ x u, u ∈ nbAt m' x → x ∈ nbAt m' u) :
    WF ⟨vs, ix, m', nid⟩ := by
  obtain ⟨h1, h2, h3, h4, h5, h6, h7, h8, h9, h10, h11, h12⟩ := hWF
  have hnd' : (m'.map Prod.fst).Nodup := by rw [hkeys]; exact h4
  refine ⟨h1, h2, h3, hnd', h5, h6, ?_, ?_, ?_, ?_, ?_, h12⟩
  · intro p hp
    have hmem : p.1 ∈ m'.map Prod.fst := List.mem_map_of_mem _ hp
    rw [hkeys] at hmem
    obtain ⟨q, hq, hq1⟩ := List.mem_map.mp hmem
    exact hq1 ▸ h7 q hq
  · intro v hv
    show v ∈ m'.map Prod.fst
    rw [hkeys]
    exact h8 v hv
  · intro p hp
    rw [entry_eq_nbAt hnd' hp]
    exact hnodup p.1
  · intro p hp u hu
    rw [entry_eq_nbAt hnd' hp] at hu
    exact hlive p.1 u hu
  · intro p hp u hu
    rw [entry_eq_nbAt hnd' hp] at hu
    exact hsymm p.1 u hu

theorem liveIds_mem_keys {vs : List (Int × VId)} {ix : List (VId × Int)}
    {nb : List (VId × List VId)} {nid : VId}
    (hWF : WF ⟨vs, ix, nb, nid⟩) {i : Int} {v : VId}
    (h : findA vs i = some v) : v ∈ nb.map Prod.fst := by
  obtain ⟨-, -, -, -, -, -, -, h8, -⟩ := hWF
  exact h8 v (List.mem_map_of_mem _ (findA_mem h))

theorem addEdgeCore_WF_sorted {g : Graph} (hWF : WF g) {i j : Int}
    (hle : i ≤ j) : WF (g.addEdgeCore i j).1 := by
  by_cases hok : (g.addEdgeCore i j).2 = none
  · obtain ⟨vs, ix, nb, nid⟩ := g
    have h : Graph.addEdgeCore ⟨vs, ix, nb, nid⟩ i j =
        ((Graph.addEdgeCore ⟨vs, ix, nb, nid⟩ i j).1, none) :=
      Prod.ext_iff.mpr ⟨rfl, hok⟩
    obtain ⟨vf, vt, m, hf, ht, hc, hg1⟩ := addEdgeCore_pair hle h
    rw [hg1]
    have hflive : vf ∈ Graph.liveIds ⟨vs, ix, nb, nid⟩ :=
      List.mem_map_of_mem _ (findA_mem hf)
    have htlive : vt ∈ Graph.liveIds ⟨vs, ix, nb, nid⟩ :=
      List.mem_map_of_mem _ (findA_mem ht)
    apply WF_update_nbrs hWF
    · exact connect_keys (liveIds_mem_keys hWF hf) (liveIds_mem_keys hWF ht)
        hc
    · exact connect_nbAt_nodup hc (fun x => hWF.nbrs_nodupAt x)
    · intro x u hu
      rcases (connect_mem_nbAt hc x u).mp hu with hu | ⟨-, rfl⟩ | ⟨-, rfl⟩
      · exact (hWF.nb_live hu).1
      · exact htlive
      · exact hflive
    · intro x u hu
      rcases (connect_mem_nbAt hc x u).mp hu with hu | ⟨hx, hu2⟩ | ⟨hx, hu2⟩
      · exact (connect_mem_nbAt hc u x).mpr (Or.inl (hWF.symmNb hu))
      · exact (connect_mem_nbAt hc u x).mpr (Or.inr (Or.inr ⟨hu2, hx⟩))
      · exact (connect_mem_nbAt hc u x).mpr (Or.inr (Or.inl ⟨hu2, hx⟩))
  · have hsome : ((g.addEdgeCore i j).2).isSome = true := by
      cases hval : (g.addEdgeCore i j).2 with
      | none => exact absurd hval hok
      | some e => rfl
    rw [addEdgeCore_atomic g i j hsome]
    exact hWF

theorem addEdgeCore_WF {g : Graph} (hWF : WF g) (i j : Int) :
    WF (g.addEdgeCore i j).1 := by
  rcases le_or_lt i j with hle | hlt
  · exact addEdgeCore_WF_sorted hWF hle
  · rw [addEdgeCore_comm]
    exact addEdgeCore_WF_sorted hWF (le_of_lt hlt)

theorem removeEdgeCore_pair {vs : List (Int × VId)} {ix : List (VId × Int)}
    {nb : List (VId × List VId)} {nid : VId} {g1 : Graph} {x y : Int}
    (hxy : x ≤ y)
    (h : Graph.removeEdgeCore ⟨vs, ix, nb, nid⟩ x y = (g1, none)) :
    ∃ vf vt m, findA vs x = some vf ∧ findA vs y = some vt ∧
      disconnect vf vt nb = some m ∧ g1 = ⟨vs, ix, m, nid⟩ := by
  simp only [Graph.removeEdgeCore, if_pos hxy] at h
  cases hf : findA vs x with
  | none =>
    simp only [hf] at h
    exact absurd (congrArg Prod.snd h) (by simp)
  | some vf =>
    simp only [hf] at h
    cases ht : findA vs y with
    | none =>
      simp only [ht] at h
      exact absurd (congrArg Prod.snd h) (by simp)
    | some vt =>
      simp only [ht] at h
      cases hc : disconnect vf vt nb with
      | none =>
        simp only [hc] at h
        exact absurd (congrArg Prod.snd h) (by simp)
      | some m =>
        simp only [hc] at h
        have hg : g1 = Graph.mk vs ix m nid := by
          have h1 := congrArg Prod.fst h
          simpa using h1.symm
        exact ⟨vf, vt, m, rfl, rfl, hc, hg⟩

theorem removeEdgeCore_comm (g : Graph) (i j : Int) :
    g.removeEdgeCore i j = g.removeEdgeCore j i := by
  obtain ⟨vs, ix, nb, nid⟩ := g
  rcases le_or_lt i j with h | h
  · rcases eq_or_lt_of_le h with rfl | h'
    · rfl
    · simp [Graph.removeEdgeCore, le_of_lt h', not_le.mpr h']
  · simp [Graph.removeEdgeCore, le_of_lt h, not_le.mpr h]

theorem removeEdgeCore_WF_sorted {g : Graph} (hWF : WF g) {i j : Int}
    (hle : i ≤ j) : WF (g.removeEdgeCore i j).1 := by
  by_cases hok : (g.removeEdgeCore i j).2 = none
  · obtain ⟨vs, ix, nb, nid⟩ := g
    have h : Graph.removeEdgeCore ⟨vs, ix, nb, nid⟩ i j =
        ((Graph.removeEdgeCore ⟨vs, ix, nb, nid⟩ i j).1, none) :=
      Prod.ext_iff.mpr ⟨rfl, hok⟩
    obtain ⟨vf, vt, m, hf, ht, hc, hg1⟩ := removeEdgeCore_pair hle h
    rw [hg1]
    apply WF_update_nbrs hWF
    · exact disconnect_keys (liveIds_mem_keys hWF hf)
        (liveIds_mem_keys hWF ht) hc
    · exact disconnect_nbAt_nodup hc (fun x => hWF.nbrs_nodupAt x)
    · intro x u hu
      exact (hWF.nb_live ((disconnect_mem_nbAt hc x u).mp hu).1).1
    · intro x u hu
      obtain ⟨hmem, hn1, hn2⟩ := (disconnect_mem_nbAt hc x u).mp hu
      refine (disconnect_mem_nbAt hc u x).mpr ⟨hWF.symmNb hmem, ?_, ?_⟩
      · intro hp
        exact hn2 ⟨hp.2, hp.1⟩
      · intro hp
        exact hn1 ⟨hp.2, hp.1⟩
  · have hsome : ((g.removeEdgeCore i j).2).isSome = true := by
      cases hval : (g.removeEdgeCore i j).2 with
      | none => exact absurd hval hok
      | some e => rfl
    rw [removeEdgeCore_atomic g i j hsome]
    exact hWF

theorem removeEdgeCore_WF {g : Graph} (hWF : WF g) (i j : Int) :
    WF (g.removeEdgeCore i j).1 := by
  rcases le_or_lt i j with hle | hlt
  · exact removeEdgeCore_WF_sorted hWF hle
  · rw [removeEdgeCore_comm]
    exact removeEdgeCore_WF_sorted hWF (le_of_lt hlt)

theorem addVertexCore_WF {g : Graph} (hWF : WF g) (i : Int) :
    WF (g.addVertexCore i).1 := by
  obtain ⟨vs, ix, nb, nid⟩ := g
  by_cases hf : (findA vs i).isSome = true
  · simp only [Graph.addVertexCore, hf, if_true]
    exact hWF
  · simp only [Graph.addVertexCore, hf, Bool.false_eq_true, if_false]
    have hn : findA vs i = none := by
      cases hval : findA vs i with
      | none => rfl
      | some v => rw [hval] at hf; exact absurd rfl hf
    have hkeyi : i ∉ vs.map Prod.fst := (findA_eq_none_iff vs i).mp hn
    obtain ⟨h1, h2, h3, h4, h5, h6, h7, h8, h9, h10, h11, h12⟩ := hWF
    have hixlive : ∀ p ∈ ix, p.1 ∈ vs.map (fun q => q.2) := by
      intro p hp
      exact List.mem_map_of_mem _ (h6 p hp)
    have hnblive : ∀ p ∈ nb, p.1 ∈ vs.map (fun q => q.2) := h7
    refine ⟨?_, ?_, ?_, ?_, ?_, ?_, ?_, ?_, ?_, ?_, ?_, ?_⟩
    · show ((vs ++ [(i, nid)]).map (fun p => p.1)).Nodup
      rw [List.map_append]
      rw [List.nodup_append]
      refine ⟨h1, List.nodup_singleton _, ?_⟩
      intro a ha hb
      simp only [List.map_cons, List.map_nil, List.mem_singleton] at hb
      rw [hb] at ha
      exact hkeyi ha
    · show ((vs ++ [(i, nid)]).map (fun p => p.2)).Nodup
      rw [List.map_append]
      rw [List.nodup_append]
      refine ⟨h2, List.nodup_singleton _, ?_⟩
      intro a ha hb
      simp only [List.map_cons, List.map_nil, List.mem_singleton] at hb
      rw [hb] at ha
      exact absurd (h12 nid ha) (lt_irrefl nid)
    · show ((ix ++ [(nid, i)]).map (fun p => p.1)).Nodup
      rw [List.map_append]
      rw [List.nodup_append]
      refine ⟨h3, List.nodup_singleton _, ?_⟩
      intro a ha hb
      simp only [List.map_cons, List.map_nil, List.mem_singleton] at hb
      rw [hb] at ha
      obtain ⟨p, hp, hp1⟩ := List.mem_map.mp ha
      exact absurd (h12 nid (hp1 ▸ hixlive p hp)) (lt_irrefl nid)
    · show ((nb ++ [(nid, ([] : List VId))]).map (fun p => p.1)).Nodup
      rw [List.map_append]
      rw [List.nodup_append]
      refine ⟨h4, List.nodup_singleton _, ?_⟩
      intro a ha hb
      simp only [List.map_cons, List.map_nil, List.mem_singleton] at hb
      rw [hb] at ha
      obtain ⟨p, hp, hp1⟩ := List.mem_map.mp ha
      exact absurd (h12 nid (hp1 ▸ hnblive p hp)) (lt_irrefl nid)
    · intro p hp
      rcases List.mem_append.mp hp with hp | hp
      · exact List.mem_append_left _ (h5 p hp)
      · rw [List.mem_singleton] at hp
        rw [hp]
        exact List.mem_append_right _ (List.mem_singleton.mpr rfl)
    · intro p hp
      rcases List.mem_append.mp hp with hp | hp
      · exact List.mem_append_left _ (h6 p hp)
      · rw [List.mem_singleton] at hp
        rw [hp]
        exact List.mem_append_right _ (List.mem_singleton.mpr rfl)
    · intro p hp
      show p.1 ∈ (vs ++ [(i, nid)]).map (fun q => q.2)
      rw [List.map_append]
      rcases List.mem_append.mp hp with hp | hp
      · exact List.mem_append_left _ (h7 p hp)
      · rw [List.mem_singleton] at hp
        rw [hp]
        exact List.mem_append_right _ (by simp)
    · intro v hv
      show v ∈ (nb ++ [(nid, ([] : List VId))]).map (fun q => q.1)
      rw [List.map_append]
      have hv' : v ∈ vs.map (fun q => q.2) ++ [nid] := by
        have : (vs ++ [(i, nid)]).map (fun q => q.2) =
            vs.map (fun q => q.2) ++ [nid] := by rw [List.map_append]; rfl
        exact this ▸ hv
      rcases List.mem_append.mp hv' with hv' | hv'
      · exact List.mem_append_left _ (h8 v hv')
      · rw [List.mem_singleton] at hv'
        rw [hv']
        exact List.mem_append_right _ (by simp)
    · intro p hp
      rcases List.mem_append.mp hp with hp | hp
      · exact h9 p hp
      · rw [List.mem_singleton] at hp
        rw [hp]
        exact List.nodup_nil
    · intro p hp u hu
      rcases List.mem_append.mp hp with hp | hp
      · show u ∈ (vs ++ [(i, nid)]).map (fun q => q.2)
        rw [List.map_append]
        exact List.mem_append_left _ (h10 p hp u hu)
      · rw [List.mem_singleton] at hp
        rw [hp] at hu
        exact absurd hu (List.not_mem_nil u)
    · intro p hp u hu
      rcases List.mem_append.mp hp with hp | hp
      · have hnb : p.1 ∈ nbAt nb u := h11 p hp u hu
        have hulive : u ∈ vs.map (fun q => q.2) := h10 p hp u hu
        show p.1 ∈ nbAt (nb ++ [(nid, [])]) u
        unfold nbAt
        rw [findA_append]
        cases hfu : findA nb u with
        | none =>
          exact absurd ((findA_eq_none_iff nb u).mp hfu)
            (fun hc => hc (h8 u hulive))
        | some l =>
          unfold nbAt at hnb
          rw [hfu] at hnb
          exact hnb
      · rw [List.mem_singleton] at hp
        rw [hp] at hu
        exact absurd hu (List.not_mem_nil u)
    · intro v hv
      have hv' : v ∈ vs.map (fun q => q.2) ++ [nid] := by
        have : (vs ++ [(i, nid)]).map (fun q => q.2) =
            vs.map (fun q => q.2) ++ [nid] := by rw [List.map_append]; rfl
        exact this ▸ hv
      show v < nid + 1
      rcases List.mem_append.mp hv' with hv' | hv'
      · exact lt_trans (h12 v hv') (Nat.lt_succ_self nid)
      · rw [List.mem_singleton] at hv'
        rw [hv']
        exact Nat.lt_succ_self nid

theorem removeVertexCore_WF {g : Graph} (hWF : WF g) (i : Int) :
    WF (g.removeVertexCore i).1 := by
  cases hvid : g.getVertexI i with
  | none =>
    have hred : g.removeVertexCore i =
        (g, some (.evalErr "Vertex with index doesnt exist")) := by
      simp only [Graph.removeVertexCore, hvid]
    rw [hred]
    exact hWF
  | some vid =>
    obtain ⟨g1, hrun, hverts, hidxs, hnid, hother, herase, hvfold, hnomem,
      hkeys⟩ :=
      disconnectAll_spec vid (g.nbrsOf vid) g (hWF.nbrs_nodupAt vid)
        (fun u hu => hu) (fun u hu => hWF.symmNb hu)
    obtain ⟨vs1, ix1, nb1, nid1⟩ := g1
    have hvs1 : vs1 = g.verts := hverts
    have hix1 : ix1 = g.idxs := hidxs
    have hnid1 : nid1 = g.nextId := hnid
    have hkeys1 : nb1.map Prod.fst = g.nbrs.map Prod.fst := hkeys
    have herase1 : ∀ x ∈ g.nbrsOf vid, x ≠ vid →
        nbAt nb1 x = eraseSet (g.nbrsOf x) vid := herase
    have hother1 : ∀ x, x ∉ g.nbrsOf vid → x ≠ vid →
        nbAt nb1 x = g.nbrsOf x := hother
    have hred : g.removeVertexCore i =
        (⟨eraseA vs1 i, eraseA ix1 vid, eraseA nb1 vid, nid1⟩, none) := by
      simp only [Graph.removeVertexCore, hvid, hrun]
    rw [hred]
    show WF ⟨eraseA vs1 i, eraseA ix1 vid, eraseA nb1 vid, nid1⟩
    rw [hvs1, hix1, hnid1]
    have hW := hWF
    obtain ⟨h1, h2, h3, h4, h5, h6, h7, h8, h9, h10, h11, h12⟩ := hW
    have hv' : findA g.verts i = some vid := hvid
    have hivid : (i, vid) ∈ g.verts := findA_mem hv'
    have hlive_erase : ∀ u, u ∈ (eraseA g.verts i).map (fun p => p.2) ↔
        u ∈ g.liveIds ∧ u ≠ vid := by
      intro u
      constructor
      · intro hu
        obtain ⟨p, hp, hpu⟩ := List.mem_map.mp hu
        obtain ⟨hpm, hpne⟩ := (mem_eraseA_iff _ _ _).mp hp
        refine ⟨hpu ▸ List.mem_map_of_mem _ hpm, ?_⟩
        intro huvid
        have heq := List.inj_on_of_nodup_map h2 hpm hivid
          (by show p.2 = vid; rw [hpu, huvid])
        exact hpne (by rw [heq])
      · intro hu
        obtain ⟨hul, hune⟩ := hu
        obtain ⟨p, hp, hpu⟩ := List.mem_map.mp hul
        refine List.mem_map.mpr ⟨p, (mem_eraseA_iff _ _ _).mpr ⟨hp, ?_⟩, hpu⟩
        intro hpi
        have hfnd : findA g.verts i = some p.2 :=
          mem_findA h1 (by rw [← hpi]; exact hp)
        rw [hv'] at hfnd
        exact hune (by rw [← hpu, ← Option.some.inj hfnd])
    have hnbval : ∀ x, x ≠ vid → ∀ u,
        u ∈ nbAt (eraseA nb1 vid) x ↔ u ∈ g.nbrsOf x ∧ u ≠ vid := by
      intro x hx u
      rw [nbAt_eraseA_ne hx]
      by_cases hxl : x ∈ g.nbrsOf vid
      · rw [herase1 x hxl hx, mem_eraseSet_iff]
      · rw [hother1 x hxl hx]
        constructor
        · intro hu
          refine ⟨hu, ?_⟩
          intro huvid
          rw [huvid] at hu
          exact hxl (hWF.symmNb hu)
        · exact fun h => h.1
    have hnbnodup : ∀ x, (nbAt (eraseA nb1 vid) x).Nodup := by
      intro x
      by_cases hx : x = vid
      · rw [hx, nbAt_eraseA_self]
        exact List.nodup_nil
      · rw [nbAt_eraseA_ne hx]
        by_cases hxl : x ∈ g.nbrsOf vid
        · rw [herase1 x hxl hx]
          exact nodup_eraseSet _ _ (hWF.nbrs_nodupAt x)
        · rw [hother1 x hxl hx]
          exact hWF.nbrs_nodupAt x
    have h4R : ((eraseA nb1 vid).map Prod.fst).Nodup := by
      rw [keys_eraseA, hkeys1]
      exact List.Nodup.filter _ h4
    refine ⟨?_, ?_, ?_, ?_, ?_, ?_, ?_, ?_, ?_, ?_, ?_, ?_⟩
    · show ((eraseA g.verts i).map Prod.fst).Nodup
      rw [keys_eraseA]
      exact List.Nodup.filter _ h1
    · show ((eraseA g.verts i).map (fun p => p.2)).Nodup
      exact List.Nodup.sublist (List.Sublist.map _ (eraseA_sublist _ _)) h2
    · show ((eraseA g.idxs vid).map Prod.fst).Nodup
      rw [keys_eraseA]
      exact List.Nodup.filter _ h3
    · exact h4R
    · intro p hp
      have hpl := (hlive_erase p.2).mp (List.mem_map_of_mem _ hp)
      exact (mem_eraseA_iff _ _ _).mpr
        ⟨h5 p ((mem_eraseA_iff _ _ _).mp hp).1, hpl.2⟩
    · intro p hp
      obtain ⟨hpm, hpne⟩ := (mem_eraseA_iff _ _ _).mp hp
      have hmm : (p.2, p.1) ∈ g.verts := h6 p hpm
      refine (mem_eraseA_iff _ _ _).mpr ⟨hmm, ?_⟩
      intro hpi
      have hfnd : findA g.verts i = some p.1 :=
        mem_findA h1 (by rw [← hpi]; exact hmm)
      rw [hv'] at hfnd
      exact hpne (Option.some.inj hfnd).symm
    · intro p hp
      obtain ⟨hpm, hpne⟩ := (mem_eraseA_iff _ _ _).mp hp
      have hpk : p.1 ∈ nb1.map Prod.fst := List.mem_map_of_mem _ hpm
      rw [hkeys1] at hpk
      obtain ⟨q, hq, hq1⟩ := List.mem_map.mp hpk
      have hlv : p.1 ∈ g.liveIds := hq1 ▸ h7 q hq
      exact (hlive_erase p.1).mpr ⟨hlv, hpne⟩
    · intro v hv
      obtain ⟨hlv, hne⟩ := (hlive_erase v).mp hv
      show v ∈ (eraseA nb1 vid).map Prod.fst
      rw [keys_eraseA, hkeys1]
      exact List.mem_filter.mpr ⟨h8 v hlv, by simp [hne]⟩
    · intro p hp
      rw [entry_eq_nbAt h4R hp]
      exact hnbnodup p.1
    · intro p hp u hu
      rw [entry_eq_nbAt h4R hp] at hu
      by_cases hpv : p.1 = vid
      · rw [hpv, nbAt_eraseA_self] at hu
        exact absurd hu (List.not_mem_nil u)
      · obtain ⟨hug, hune⟩ := (hnbval p.1 hpv u).mp hu
        exact (hlive_erase u).mpr ⟨(hWF.nb_live hug).1, hune⟩
    · intro p hp u hu
      rw [entry_eq_nbAt h4R hp] at hu
      show p.1 ∈ nbAt (eraseA nb1 vid) u
      by_cases hpv : p.1 = vid
      · rw [hpv, nbAt_eraseA_self] at hu
        exact absurd hu (List.not_mem_nil u)
      · obtain ⟨hug, hune⟩ := (hnbval p.1 hpv u).mp hu
        exact (hnbval u hune p.1).mpr ⟨hWF.symmNb hug, hpv⟩
    · intro v hv
      exact h12 v ((hlive_erase v).mp hv).1

theorem addVertex_WF {g : Graph} (hWF : WF g) (q : ℚ) :
    WF (g.addVertex q).1 := by
  unfold Graph.addVertex
  by_cases hq : q.isInt
  · simp only [hq, not_true, if_false]
    exact addVertexCore_WF hWF q.num
  · simp only [hq, not_false_iff, if_true]
    exact hWF

theorem removeVertex_WF {g : Graph} (hWF : WF g) (q : ℚ) :
    WF (g.removeVertex q).1 := by
  unfold Graph.removeVertex
  by_cases hq : q.isInt
  · simp only [hq, not_true, if_false]
    exact removeVertexCore_WF hWF q.num
  · simp only [hq, not_false_iff, if_true]
    exact hWF

theorem addEdge_WF {g : Graph} (hWF : WF g) (q r : ℚ) :
    WF (g.addEdge q r).1 := by
  unfold Graph.addEdge
  by_cases hq : q.isInt
  · by_cases hr : r.isInt
    · simp only [hq, hr, not_true, if_false]
      exact addEdgeCore_WF hWF q.num r.num
    · simp only [hq, hr, not_true, not_false_iff, if_false, if_true]
      exact hWF
  · simp only [hq, not_false_iff, if_true]
    exact hWF

theorem removeEdge_WF {g : Graph} (hWF : WF g) (q r : ℚ) :
    WF (g.removeEdge q r).1 := by
  unfold Graph.removeEdge
  by_cases hq : q.isInt
  · by_cases hr : r.isInt
    · simp only [hq, hr, not_true, if_false]
      exact removeEdgeCore_WF hWF q.num r.num
    · simp only [hq, hr, not_true, not_false_iff, if_false, if_true]
      exact hWF
  · simp only [hq, not_false_iff, if_true]
    exact hWF

/-- Every public mutation preserves the structural invariant. -/
theorem applyOp_WF {g : Graph} (hWF : WF g) (op : GOp) :
    WF (applyOp g op) := by
  cases op with
  | addV q => exact addVertex_WF hWF q
  | remV q => exact removeVertex_WF hWF q
  | addE q r => exact addEdge_WF hWF q r
  | remE q r => exact removeEdge_WF hWF q r

theorem WF_empty : WF ({} : Graph) := by decide

/-- Every reachable graph state satisfies the structural invariant. -/
theorem Reachable_WF {g : Graph} (h : Reachable g) : WF g := by
  obtain ⟨ops, hops⟩ := h
  rw [← hops]
  unfold buildOps
  have hgen : ∀ (l : List GOp) (g0 : Graph), WF g0 → WF (l.foldl applyOp g0) := by
    intro l
    induction l with
    | nil => intro g0 h0; exact h0
    | cons op rest ih =>
      intro g0 h0
      exact ih _ (applyOp_WF h0 op)
  exact hgen ops {} WF_empty

/-- C1: on the bowtie graph with vertices 0..4 and edges
(0,1),(1,2),(2,0),(2,3),(3,4),(4,2), `getBiconnectedComponents` returns
exactly two component subgraphs, one with vertex set 0,1,2 and edge set
(0,1),(1,2),(0,2), the other with vertex set 2,3,4 and edge set
(2,3),(3,4),(2,4). -/
theorem claim_C1 :
    twoCompsCheck bowtie.getBiconnectedComponents
      [0, 1, 2] [(0, 1), (1, 2), (0, 2)]
      [2, 3, 4] [(2, 3), (3, 4), (2, 4)] = true := by
  decide

/-- C4: the code violates the claim.  On a graph with the single vertex 1,
`addEdge(1, 1)` does not throw: it returns normally and afterwards vertex 1
is its own neighbor (`Graph.Vertex.connect` only rejects a pair that is
already connected, so a self-loop slips through), contradicting the spec,
which demands that `addEdge(a, a)` be rejected and that the neighbor
relation have no self-loops. -/
theorem claim_C4_selfloop_created :
    ((mkGraph [1] []).addEdge 1 1).2 = none ∧
      selfLoopGraph.memNbr 1 1 = true := by
  constructor <;> decide

theorem memNbr_symm {g : Graph} (hWF : WF g) (a b : Int) :
    g.memNbr a b = g.memNbr b a := by
  have h : ∀ x y : Int, g.memNbr x y = true → g.memNbr y x = true := by
    intro x y hxy
    obtain ⟨vx, vy, hx, hy, hmem⟩ := (memNbr_true_iff hWF x y).mp hxy
    exact (memNbr_true_iff hWF y x).mpr ⟨vy, vx, hy, hx, hWF.symmNb hmem⟩
  cases hab : g.memNbr a b with
  | true => exact (h a b hab).symm
  | false =>
    cases hba : g.memNbr b a with
    | true =>
      rw [h b a hba] at hab
      exact absurd hab (by simp)
    | false => rfl

/-- C7: the symmetry invariant.  In every graph state reachable through the
public mutations, membership in `getNeighborsOf` is symmetric between any
two indices, and applying any further public operation to a reachable state
preserves the symmetry. -/
theorem claim_C7 :
    (∀ g : Graph, Reachable g → ∀ a b : Int,
      g.memNbr a b = g.memNbr b a) ∧
    (∀ g : Graph, Reachable g → ∀ op : GOp, ∀ a b : Int,
      (applyOp g op).memNbr a b = (applyOp g op).memNbr b a) := by
  constructor
  · intro g hg a b
    exact memNbr_symm (Reachable_WF hg) a b
  · intro g hg op a b
    exact memNbr_symm (applyOp_WF (Reachable_WF hg) op) a b

/-- Concrete use of `claim_C7`: symmetry of the one-edge graph on 1, 2. -/
theorem claim_C7_witness :
    (mkGraph [1, 2] [(1, 2)]).memNbr 1 2 = (mkGraph [1, 2] [(1, 2)]).memNbr 2 1 :=
  claim_C7.1 (mkGraph [1, 2] [(1, 2)])
    ⟨[.addV 1, .addV 2, .addE 1 2], by decide⟩ 1 2

theorem popUntil_mem (e : VId × VId) :
    ∀ (stk : List (VId × VId)) (x : VId × VId),
      (x ∈ (popUntil e stk).1 → x ∈ stk) ∧
      (x ∈ (popUntil e stk).2 → x ∈ stk) := by
  intro stk
  induction stk with
  | nil =>
    intro x
    constructor <;> intro h <;> simp [popUntil] at h
  | cons y rest ih =>
    intro x
    by_cases hy : y = e
    · constructor
      · intro h
        simp only [popUntil, if_pos hy] at h
        rw [List.mem_singleton] at h
        rw [h]
        exact List.mem_cons_self y rest
      · intro h
        simp only [popUntil, if_pos hy] at h
        exact List.mem_cons_of_mem _ h
    · constructor
      · intro h
        simp only [popUntil, if_neg hy] at h
        rcases List.mem_cons.mp h with h | h
        · rw [h]
          exact List.mem_cons_self y rest
        · exact List.mem_cons_of_mem _ ((ih x).1 h)
      · intro h
        simp only [popUntil, if_neg hy] at h
        exact List.mem_cons_of_mem _ ((ih x).2 h)

theorem flatPairs_mem :
    ∀ {p : List (VId × VId)} {u : VId}, u ∈ flatPairs p →
      ∃ e ∈ p, u = e.1 ∨ u = e.2 := by
  intro p
  induction p with
  | nil => intro u h; simp [flatPairs] at h
  | cons e rest ih =>
    intro u h
    simp only [flatPairs] at h
    rcases List.mem_cons.mp h with h | h
    · exact ⟨e, List.mem_cons_self e rest, Or.inl h⟩
    · rcases List.mem_cons.mp h with h | h
      · exact ⟨e, List.mem_cons_self e rest, Or.inr h⟩
      · obtain ⟨e', he', hu⟩ := ih h
        exact ⟨e', List.mem_cons_of_mem _ he', hu⟩

theorem walkExt_edges (g : Graph) :
    ∀ fuel : Nat,
      (∀ (st : DfsState) (v : VId), EdgeStInv g st →
        EdgeStInv g (walkExt g fuel st v)) ∧
      (∀ (st : DfsState) (v : VId) (c : Nat) (ns : List VId),
        EdgeStInv g st → (∀ n ∈ ns, n ∈ g.nbrsOf v) →
        EdgeStInv g (walkExtLoop g fuel st v c ns)) := by
  intro fuel
  induction fuel with
  | zero =>
    constructor
    · intro st v h
      exact h
    · intro st v c ns h hns
      cases ns with
      | nil => exact h
      | cons n rest => exact h
  | succ fuel ih =>
    obtain ⟨ihE, ihL⟩ := ih
    constructor
    · intro st v h
      obtain ⟨t, ll, vis, par, stk, ph⟩ := st
      exact ihL ⟨t + 1, setA ll v (t + 1), setA vis v (t + 1), par, stk, ph⟩
        v 0 (g.nbrsOf v) ⟨h.1, h.2⟩ (fun n hn => hn)
    · intro st v c ns h hns
      obtain ⟨t, ll, vis, par, stk, ph⟩ := st
      cases ns with
      | nil => exact h
      | cons n rest =>
        have hn : n ∈ g.nbrsOf v := hns n (List.mem_cons_self n rest)
        have hrest : ∀ m ∈ rest, m ∈ g.nbrsOf v :=
          fun m hm => hns m (List.mem_cons_of_mem _ hm)
        by_cases hvisn : findA vis n = none
        · cases hW : walkExt g fuel
              ⟨t, ll, vis, setA par n v, (v, n) :: stk, ph⟩ n with
          | mk t2 ll2 vis2 par2 stk2 ph2 =>
            have hWinv : EdgeStInv g ⟨t2, ll2, vis2, par2, stk2, ph2⟩ := by
              rw [← hW]
              refine ihE _ _ ⟨?_, h.2⟩
              intro e he
              rcases List.mem_cons.mp he with he | he
              · rw [he]
                exact hn
              · exact h.1 e he
            simp only [walkExtLoop, if_pos hvisn, hW]
            by_cases hart : (mgetN vis2 v = 1 ∧ c + 1 > 1) ∨
                (mgetN vis2 v > 1 ∧
                  mgetN (if mgetN ll2 v > mgetN ll2 n
                    then setA ll2 v (mgetN ll2 n) else ll2) n ≥ mgetN vis2 v)
            · rw [if_pos hart]
              cases hPU : popUntil (v, n) stk2 with
              | mk path stk3 =>
                refine ihL _ _ _ _ ⟨?_, ?_⟩ hrest
                · intro e he
                  have he3 : e ∈ stk3 := he
                  have : e ∈ stk2 := by
                    have := (popUntil_mem (v, n) stk2 e).2
                    rw [hPU] at this
                    exact this he3
                  exact hWinv.1 e this
                · intro p hp e he
                  rcases List.mem_append.mp hp with hp | hp
                  · exact hWinv.2 p hp e he
                  · rw [List.mem_singleton] at hp
                    rw [hp] at he
                    have : e ∈ stk2 := by
                      have hpm := (popUntil_mem (v, n) stk2 e).1
                      rw [hPU] at hpm
                      exact hpm he
                    exact hWinv.1 e this
            · rw [if_neg hart]
              exact ihL _ _ _ _ ⟨hWinv.1, hWinv.2⟩ hrest
        · simp only [walkExtLoop, if_neg hvisn]
          by_cases hback : findA par v ≠ some n ∧ mgetN vis n < mgetN vis v
          · rw [if_pos hback]
            refine ihL _ _ _ _ ⟨?_, h.2⟩ hrest
            intro e he
            rcases List.mem_cons.mp he with he | he
            · rw [he]
              exact hn
            · exact h.1 e he
          · rw [if_neg hback]
            exact ihL _ _ _ _ ⟨h.1, h.2⟩ hrest

theorem bicompRoots_edges (g : Graph) :
    ∀ (roots : List VId) (st : DfsState), EdgeStInv g st →
      EdgeStInv g (bicompRoots g st roots) := by
  intro roots
  induction roots with
  | nil => intro st h; exact h
  | cons v rest ih =>
    intro st h
    obtain ⟨t, ll, vis, par, stk, ph⟩ := st
    have hmid : EdgeStInv g (if (findA vis v).isSome
        then (⟨t, ll, vis, par, stk, ph⟩ : DfsState)
        else walkExt g (dfsFuel g) ⟨t, ll, vis, par, stk, ph⟩ v) := by
      by_cases hv : (findA vis v).isSome
      · rw [if_pos hv]
        exact h
      · rw [if_neg hv]
        exact (walkExt_edges g (dfsFuel g)).1 _ _ h
    cases hmid' : (if (findA vis v).isSome
        then (⟨t, ll, vis, par, stk, ph⟩ : DfsState)
        else walkExt g (dfsFuel g) ⟨t, ll, vis, par, stk, ph⟩ v) with
    | mk t2 ll2 vis2 par2 stk2 ph2 =>
      rw [hmid'] at hmid
      simp only [bicompRoots, hmid']
      apply ih
      constructor
      · intro e he
        exact absurd he (List.not_mem_nil e)
      · intro p hp e he
        rcases List.mem_append.mp hp with hp | hp
        · exact hmid.2 p hp e he
        · rw [List.mem_singleton] at hp
          rw [hp] at he
          rw [List.mem_reverse] at he
          exact hmid.1 e he

theorem toExcept_ok_fst {p : Graph × Option JsError} {g' : Graph}
    (h : toExcept p = .ok g') : g' = p.1 := by
  obtain ⟨gg, e⟩ := p
  cases e with
  | none =>
    cases h
    rfl
  | some err => cases h

theorem addVertex_keys {g : Graph} {q : ℚ} {k : Int}
    (h : k ∈ ((g.addVertex q).1).vertexKeys) : k ∈ g.vertexKeys ∨ k = q.num := by
  unfold Graph.addVertex at h
  by_cases hq : q.isInt
  · simp only [hq, not_true, if_false] at h
    obtain ⟨vs, ix, nb, nid⟩ := g
    by_cases hf : (findA vs q.num).isSome = true
    · simp only [Graph.addVertexCore, hf, if_true] at h
      exact Or.inl h
    · simp only [Graph.addVertexCore, hf, Bool.false_eq_true, if_false] at h
      have h' : k ∈ (vs ++ [(q.num, nid)]).map (fun p => p.1) := h
      rw [List.map_append] at h'
      rcases List.mem_append.mp h' with h' | h'
      · exact Or.inl h'
      · simp only [List.map_cons, List.map_nil, List.mem_singleton] at h'
        exact Or.inr h'
  · simp only [hq, not_false_iff, if_true] at h
    exact Or.inl h

theorem addEdgeCore_verts_sorted {g : Graph} {i j : Int} (hle : i ≤ j) :
    ((g.addEdgeCore i j).1).verts = g.verts := by
  by_cases hok : (g.addEdgeCore i j).2 = none
  · obtain ⟨vs, ix, nb, nid⟩ := g
    obtain ⟨vf, vt, m, hf, ht, hc, hg1⟩ := addEdgeCore_pair hle
      (Prod.ext_iff.mpr ⟨rfl, hok⟩)
    exact (congrArg Graph.verts hg1).trans rfl
  · have hsome : ((g.addEdgeCore i j).2).isSome = true := by
      cases hval : (g.addEdgeCore i j).2 with
      | none => exact absurd hval hok
      | some e => rfl
    rw [addEdgeCore_atomic g i j hsome]

theorem addEdgeCore_verts (g : Graph) (i j : Int) :
    ((g.addEdgeCore i j).1).verts = g.verts := by
  rcases le_or_lt i j with hle | hlt
  · exact addEdgeCore_verts_sorted hle
  · rw [addEdgeCore_comm]
    exact addEdgeCore_verts_sorted (le_of_lt hlt)

theorem addEdge_keys (g : Graph) (q r : ℚ) :
    ((g.addEdge q r).1).vertexKeys = g.vertexKeys := by
  unfold Graph.addEdge
  by_cases hq : q.isInt
  · by_cases hr : r.isInt
    · simp only [hq, hr, not_true, if_false]
      show ((g.addEdgeCore q.num r.num).1).verts.map _ = g.verts.map _
      rw [addEdgeCore_verts]
    · simp [hq, hr]
  · simp [hq]

theorem subInner_keys (g : Graph) (isFirst : Bool) (iFrom : Int) (vf : VId) :
    ∀ (l : List Int) (sub c : Graph),
      g.subInner isFirst iFrom vf sub l = .ok c →
      ∀ k, k ∈ c.vertexKeys → k ∈ sub.vertexKeys ∨ k ∈ l := by
  intro l
  induction l with
  | nil =>
    intro sub c h k hk
    simp only [Graph.subInner] at h
    cases h
    exact Or.inl hk
  | cons iTo rest ih =>
    intro sub c h k hk
    simp only [Graph.subInner] at h
    cases hvt : g.getVertexI iTo with
    | none =>
      simp only [hvt] at h
      cases h
    | some vt =>
      simp only [hvt] at h
      cases hx1 : (if isFirst then toExcept (sub.addVertex (iTo : ℚ))
          else .ok sub : Except JsError Graph) with
      | error e =>
        simp only [hx1] at h
        cases h
      | ok sub1 =>
        simp only [hx1] at h
        cases hx2 : (if vt ∈ g.nbrsOf vf
            then toExcept (sub1.addEdge (iFrom : ℚ) (iTo : ℚ))
            else .ok sub1 : Except JsError Graph) with
        | error e =>
          simp only [hx2] at h
          cases h
        | ok sub2 =>
          simp only [hx2] at h
          rcases ih sub2 c h k hk with hrec | hrec
          · have hk1 : k ∈ sub1.vertexKeys := by
              by_cases hc : vt ∈ g.nbrsOf vf
              · rw [if_pos hc] at hx2
                have h2 := toExcept_ok_fst hx2
                rw [h2] at hrec
                rw [addEdge_keys] at hrec
                exact hrec
              · rw [if_neg hc] at hx2
                cases hx2
                exact hrec
            by_cases hfirst : isFirst
            · rw [if_pos hfirst] at hx1
              have h1 := toExcept_ok_fst hx1
              rw [h1] at hk1
              rcases addVertex_keys hk1 with hk1 | hk1
              · exact Or.inl hk1
              · rw [num_intCast] at hk1
                rw [hk1]
                exact Or.inr (List.mem_cons_self iTo rest)
            · rw [if_neg hfirst] at hx1
              cases hx1
              exact Or.inl hk1
          · exact Or.inr (List.mem_cons_of_mem _ hrec)

theorem subOuter_keys (g : Graph) :
    ∀ (l : List Int) (isFirst : Bool) (sub c : Graph),
      g.subOuter isFirst sub l = .ok c →
      ∀ k, k ∈ c.vertexKeys → k ∈ sub.vertexKeys ∨ k ∈ l := by
  intro l
  induction l with
  | nil =>
    intro isFirst sub c h k hk
    simp only [Graph.subOuter] at h
    cases h
    exact Or.inl hk
  | cons iFrom rest ih =>
    intro isFirst sub c h k hk
    simp only [Graph.subOuter] at h
    cases hvf : g.getVertexI iFrom with
    | none =>
      simp only [hvf] at h
      cases h
    | some vf =>
      simp only [hvf] at h
      cases hx1 : (if isFirst then toExcept (sub.addVertex (iFrom : ℚ))
          else .ok sub : Except JsError Graph) with
      | error e =>
        simp only [hx1] at h
        cases h
      | ok sub1 =>
        simp only [hx1] at h
        cases hx2 : g.subInner isFirst iFrom vf sub1 rest with
        | error e =>
          simp only [hx2] at h
          cases h
        | ok sub2 =>
          simp only [hx2] at h
          rcases ih false sub2 c h k hk with hrec | hrec
          · rcases subInner_keys g isFirst iFrom vf rest sub1 sub2 hx2 k hrec
                with hrec1 | hrec1
            · by_cases hfirst : isFirst
              · rw [if_pos hfirst] at hx1
                have h1 := toExcept_ok_fst hx1
                rw [h1] at hrec1
                rcases addVertex_keys hrec1 with hk1 | hk1
                · exact Or.inl hk1
                · rw [num_intCast] at hk1
                  rw [hk1]
                  exact Or.inr (List.mem_cons_self iFrom rest)
              · rw [if_neg hfirst] at hx1
                cases hx1
                exact Or.inl hrec1
            · exact Or.inr (List.mem_cons_of_mem _ hrec1)
          · exact Or.inr (List.mem_cons_of_mem _ hrec)

theorem getSubgraphWith_keys {g c : Graph} {s : List Int}
    (h : g.getSubgraphWith s = .ok c) : ∀ k ∈ c.vertexKeys, k ∈ s := by
  intro k hk
  rcases subOuter_keys g s true {} c h k hk with hk' | hk'
  · exact absurd hk' (by simp [Graph.vertexKeys])
  · exact hk'

/-- C9: a vertex with index `i` that has no incident edges stays in the
vertex set, and no subgraph returned by `getBiconnectedComponents` contains
`i` (the isolated vertex contributes zero components). -/
theorem claim_C9 (g : Graph) (i : Int) (v : VId) (hWF : WF g)
    (hv : g.getVertexI i = some v) (hiso : g.nbrsOf v = []) :
    i ∈ g.vertexKeys ∧
      ∀ comps, g.getBiconnectedComponents = .ok comps →
        ∀ c ∈ comps, i ∉ c.vertexKeys := by
  constructor
  · exact List.mem_map.mpr ⟨(i, v), findA_mem hv, rfl⟩
  · intro comps hcomps c hc hik
    have hinv : EdgeStInv g (bicompRoots g {} g.liveIds) := by
      refine bicompRoots_edges g g.liveIds {} ⟨?_, ?_⟩
      · intro e he
        exact absurd he (List.not_mem_nil e)
      · intro p hp
        exact absurd hp (List.not_mem_nil p)
    unfold Graph.getBiconnectedComponents at hcomps
    obtain ⟨path, hpathmem, hpathok⟩ := mapME_ok_mem hcomps c hc
    have hpath : path ∈ (bicompRoots g {} g.liveIds).paths :=
      (List.mem_filter.mp hpathmem).1
    have hedges : ∀ e ∈ path, e.2 ∈ g.nbrsOf e.1 := hinv.2 path hpath
    cases htr : mapME (fun u =>
        match g.getIndexI u with
        | none => Except.error (JsError.evalErr "Vertex doesnt exist")
        | some i => Except.ok i) (flatPairs path) with
    | error e =>
      simp only [htr] at hpathok
      cases hpathok
    | ok idxList =>
      simp only [htr] at hpathok
      have hik' : i ∈ idxList.foldl addSet [] :=
        getSubgraphWith_keys hpathok i hik
      rw [mem_foldl_addSet] at hik'
      rcases hik' with hik' | hik'
      · exact absurd hik' (List.not_mem_nil i)
      · obtain ⟨u, hu, hfu⟩ := mapME_ok_mem htr i hik'
        have hgi : g.getIndexI u = some i := by
          cases hgu : g.getIndexI u with
          | none =>
            simp only [hgu] at hfu
            cases hfu
          | some k =>
            simp only [hgu] at hfu
            cases hfu
            rfl
        have hvu : g.getVertexI i = some u := getIndexI_inv hWF hgi
        rw [hv] at hvu
        have huv : u = v := (Option.some.inj hvu).symm
        obtain ⟨e, he, hue⟩ := flatPairs_mem hu
        have hedge := hedges e he
        rcases hue with hue | hue
        · rw [← hue, huv, hiso] at hedge
          exact absurd hedge (List.not_mem_nil _)
        · have hsym := hWF.symmNb hedge
          rw [← hue, huv, hiso] at hsym
          exact absurd hsym (List.not_mem_nil _)

theorem walkExt_congr {g1 g2 : Graph} (h : g1.nbrs = g2.nbrs) :
    ∀ fuel : Nat,
      (∀ st v, walkExt g1 fuel st v = walkExt g2 fuel st v) ∧
      (∀ st v c ns, walkExtLoop g1 fuel st v c ns =
        walkExtLoop g2 fuel st v c ns) := by
  intro fuel
  induction fuel with
  | zero =>
    constructor
    · intro st v
      rfl
    · intro st v c ns
      cases ns with
      | nil => rfl
      | cons n rest => rfl
  | succ fuel ih =>
    obtain ⟨ihE, ihL⟩ := ih
    constructor
    · intro st v
      obtain ⟨t, ll, vis, par, stk, ph⟩ := st
      show walkExtLoop g1 fuel _ v 0 (g1.nbrsOf v) =
        walkExtLoop g2 fuel _ v 0 (g2.nbrsOf v)
      rw [show g1.nbrsOf v = g2.nbrsOf v from by unfold Graph.nbrsOf; rw [h]]
      exact ihL _ _ _ _
    · intro st v c ns
      obtain ⟨t, ll, vis, par, stk, ph⟩ := st
      cases ns with
      | nil => rfl
      | cons n rest =>
        by_cases hvisn : findA vis n = none
        · simp only [walkExtLoop, if_pos hvisn]
          rw [ihE ⟨t, ll, vis, setA par n v, (v, n) :: stk, ph⟩ n]
          cases walkExt g2 fuel ⟨t, ll, vis, setA par n v, (v, n) :: stk, ph⟩
              n with
          | mk t2 ll2 vis2 par2 stk2 ph2 =>
            by_cases hart : (mgetN vis2 v = 1 ∧ c + 1 > 1) ∨
                (mgetN vis2 v > 1 ∧
                  mgetN (if mgetN ll2 v > mgetN ll2 n
                    then setA ll2 v (mgetN ll2 n) else ll2) n ≥ mgetN vis2 v)
            · simp only [if_pos hart]
              cases popUntil (v, n) stk2 with
              | mk path stk3 => exact ihL _ _ _ _
            · simp only [if_neg hart]
              exact ihL _ _ _ _
        · simp only [walkExtLoop, if_neg hvisn]
          by_cases hback : findA par v ≠ some n ∧ mgetN vis n < mgetN vis v
          · simp only [if_pos hback]
            exact ihL _ _ _ _
          · simp only [if_neg hback]
            exact ihL _ _ _ _

theorem bicompRoots_congr {g1 g2 : Graph} (hn : g1.nbrs = g2.nbrs)
    (hl : g1.verts.length = g2.verts.length) :
    ∀ roots st, bicompRoots g1 st roots = bicompRoots g2 st roots := by
  have hfuel : dfsFuel g1 = dfsFuel g2 := by
    unfold dfsFuel
    rw [hn, hl]
  intro roots
  induction roots with
  | nil =>
    intro st
    rfl
  | cons v rest ih =>
    intro st
    obtain ⟨t, ll, vis, par, stk, ph⟩ := st
    simp only [bicompRoots, hfuel,
      (walkExt_congr hn (dfsFuel g2)).1 ⟨t, ll, vis, par, stk, ph⟩ v]
    cases (if (findA vis v).isSome then (⟨t, ll, vis, par, stk, ph⟩ : DfsState)
        else walkExt g2 (dfsFuel g2) ⟨t, ll, vis, par, stk, ph⟩ v) with
    | mk t2 ll2 vis2 par2 stk2 ph2 => exact ih _

/-- C6: for any two vertex-disjoint triangles (indices listed in ascending
order within each triangle, built canonically with `addVertex` for each index
and `addEdge` for each side), `getBiconnectedComponents` returns exactly the
two triangles as components: the root iteration reaches both connected
components. -/
theorem claim_C6 (a b c d e f : Int)
    (hab : a < b) (hbc : b < c) (hde : d < e) (hef : e < f)
    (had : a ≠ d) (hae : a ≠ e) (haf : a ≠ f)
    (hbd : b ≠ d) (hbe : b ≠ e) (hbf : b ≠ f)
    (hcd : c ≠ d) (hce : c ≠ e) (hcf : c ≠ f) :
    twoCompsCheck
      (mkGraph [a, b, c, d, e, f]
        [(a, b), (b, c), (a, c), (d, e), (e, f), (d, f)]).getBiconnectedComponents
      [a, b, c] [(a, b), (b, c), (a, c)]
      [d, e, f] [(d, e), (e, f), (d, f)] = true := by
  have hac : a < c := lt_trans hab hbc
  have hdf : d < f := lt_trans hde hef
  have hfd : ¬ (f ≤ d) := not_le.mpr hdf
  have hfe : ¬ (f ≤ e) := not_le.mpr hef
  have hg : mkGraph [a, b, c, d, e, f]
      [(a, b), (b, c), (a, c), (d, e), (e, f), (d, f)] =
      ⟨[(a, 0), (b, 1), (c, 2), (d, 3), (e, 4), (f, 5)],
       [(0, a), (1, b), (2, c), (3, d), (4, e), (5, f)],
       [(0, [1, 2]), (1, [0, 2]), (2, [1, 0]), (3, [4, 5]), (4, [3, 5]),
        (5, [4, 3])], 6⟩ := by
    simp [mkGraph, Graph.addVertex, Graph.addVertexCore, Graph.addEdge,
      Graph.addEdgeCore, isInt_intCast, num_intCast, findA, setA, connect,
      nbAt, addSet,
      hab.ne, hab.ne', hbc.ne, hbc.ne', hac.ne, hac.ne',
      hde.ne, hde.ne', hef.ne, hef.ne', hdf.ne, hdf.ne',
      had, had.symm, hae, hae.symm, haf, haf.symm,
      hbd, hbd.symm, hbe, hbe.symm, hbf, hbf.symm,
      hcd, hcd.symm, hce, hce.symm, hcf, hcf.symm,
      hab.le, hbc.le, hac.le, hde.le, hef.le, hdf.le]
  have hpaths : ((bicompRoots
      ⟨[(a, 0), (b, 1), (c, 2), (d, 3), (e, 4), (f, 5)],
       [(0, a), (1, b), (2, c), (3, d), (4, e), (5, f)],
       [(0, [1, 2]), (1, [0, 2]), (2, [1, 0]), (3, [4, 5]), (4, [3, 5]),
        (5, [4, 3])], 6⟩ {} [0, 1, 2, 3, 4, 5]).paths.filter
          (fun p => p.length > 0)) =
      [[(0, 1), (1, 2), (2, 0)], [(5, 3), (4, 5), (3, 4)]] := by
    rw [bicompRoots_congr
      (show (⟨[(a, 0), (b, 1), (c, 2), (d, 3), (e, 4), (f, 5)],
        [(0, a), (1, b), (2, c), (3, d), (4, e), (5, f)],
        [(0, [1, 2]), (1, [0, 2]), (2, [1, 0]), (3, [4, 5]), (4, [3, 5]),
         (5, [4, 3])], 6⟩ : Graph).nbrs =
        (⟨[(0, 0), (1, 1), (2, 2), (3, 3), (4, 4), (5, 5)],
        [(0, 0), (1, 1), (2, 2), (3, 3), (4, 4), (5, 5)],
        [(0, [1, 2]), (1, [0, 2]), (2, [1, 0]), (3, [4, 5]), (4, [3, 5]),
         (5, [4, 3])], 6⟩ : Graph).nbrs from rfl)
      (show (⟨[(a, 0), (b, 1), (c, 2), (d, 3), (e, 4), (f, 5)],
        [(0, a), (1, b), (2, c), (3, d), (4, e), (5, f)],
        [(0, [1, 2]), (1, [0, 2]), (2, [1, 0]), (3, [4, 5]), (4, [3, 5]),
         (5, [4, 3])], 6⟩ : Graph).verts.length =
        (⟨[(0, 0), (1, 1), (2, 2), (3, 3), (4, 4), (5, 5)],
        [(0, 0), (1, 1), (2, 2), (3, 3), (4, 4), (5, 5)],
        [(0, [1, 2]), (1, [0, 2]), (2, [1, 0]), (3, [4, 5]), (4, [3, 5]),
         (5, [4, 3])], 6⟩ : Graph).verts.length from rfl)]
    decide
  have hlive : Graph.liveIds
      ⟨[(a, 0), (b, 1), (c, 2), (d, 3), (e, 4), (f, 5)],
       [(0, a), (1, b), (2, c), (3, d), (4, e), (5, f)],
       [(0, [1, 2]), (1, [0, 2]), (2, [1, 0]), (3, [4, 5]), (4, [3, 5]),
        (5, [4, 3])], 6⟩ = [0, 1, 2, 3, 4, 5] := rfl
  have hcomps : (⟨[(a, 0), (b, 1), (c, 2), (d, 3), (e, 4), (f, 5)],
       [(0, a), (1, b), (2, c), (3, d), (4, e), (5, f)],
       [(0, [1, 2]), (1, [0, 2]), (2, [1, 0]), (3, [4, 5]), (4, [3, 5]),
        (5, [4, 3])], 6⟩ : Graph).getBiconnectedComponents =
      .ok [⟨[(a, 0), (b, 1), (c, 2)], [(0, a), (1, b), (2, c)],
            [(0, [1, 2]), (1, [0, 2]), (2, [0, 1])], 3⟩,
           ⟨[(f, 0), (d, 1), (e, 2)], [(0, f), (1, d), (2, e)],
            [(0, [1, 2]), (1, [0, 2]), (2, [0, 1])], 3⟩] := by
    simp only [Graph.getBiconnectedComponents, hlive, hpaths]
    simp [mapME, flatPairs, Graph.getIndexI, findA, addSet,
      Graph.getSubgraphWith, Graph.subOuter, Graph.subInner, toExcept,
      Graph.getVertexI, Graph.nbrsOf, Graph.addVertex, Graph.addVertexCore,
      Graph.addEdge, Graph.addEdgeCore, connect, setA, nbAt,
      isInt_intCast, num_intCast,
      hab.ne, hab.ne', hbc.ne, hbc.ne', hac.ne, hac.ne',
      hde.ne, hde.ne', hef.ne, hef.ne', hdf.ne, hdf.ne',
      had, had.symm, hae, hae.symm, haf, haf.symm,
      hbd, hbd.symm, hbe, hbe.symm, hbf, hbf.symm,
      hcd, hcd.symm, hce, hce.symm, hcf, hcf.symm,
      hab.le, hbc.le, hac.le, hde.le, hef.le, hdf.le, hfd, hfe]
  rw [hg, hcomps]
  simp [twoCompsCheck, compIs, sameElemsI, edgeSetIs, Graph.hasEdgeI,
    Graph.getVertexI, Graph.nbrsOf, Graph.vertexKeys, findA, nbAt,
    hab.ne, hab.ne', hbc.ne, hbc.ne', hac.ne, hac.ne',
    hde.ne, hde.ne', hef.ne, hef.ne', hdf.ne, hdf.ne',
    had, had.symm, hae, hae.symm, haf, haf.symm,
    hbd, hbd.symm, hbe, hbe.symm, hbf, hbf.symm,
    hcd, hcd.symm, hce, hce.symm, hcf, hcf.symm]

/-- Concrete use of `claim_C6`: the two triangles 0,1,2 and 3,4,5. -/
theorem claim_C6_witness :
    twoCompsCheck
      (mkGraph [0, 1, 2, 3, 4, 5]
        [(0, 1), (1, 2), (0, 2), (3, 4), (4, 5), (3, 5)]).getBiconnectedComponents
      [0, 1, 2] [(0, 1), (1, 2), (0, 2)]
      [3, 4, 5] [(3, 4), (4, 5), (3, 5)] = true :=
  claim_C6 0 1 2 3 4 5 (by decide) (by decide) (by decide) (by decide)
    (by decide) (by decide) (by decide) (by decide) (by decide) (by decide)
    (by decide) (by decide) (by decide)

/-- Concrete use of `claim_C9`: in the graph on 1, 2, 3 with the single edge
(2, 3), vertex 1 is isolated; it stays listed while the unique returned
component (the 2-3 edge subgraph) omits it. -/
theorem claim_C9_witness :
    1 ∈ (mkGraph [1, 2, 3] [(2, 3)]).vertexKeys ∧
      1 ∉ (Graph.mk [(2, 0), (3, 1)] [(0, 2), (1, 3)]
        [(0, [1]), (1, [0])] 2).vertexKeys := by
  have h := claim_C9 (mkGraph [1, 2, 3] [(2, 3)]) 1 0 (by decide) (by decide)
    (by decide)
  refine ⟨h.1, ?_⟩
  exact h.2 [Graph.mk [(2, 0), (3, 1)] [(0, 2), (1, 3)]
      [(0, [1]), (1, [0])] 2] (by decide) _
    (List.mem_singleton.mpr rfl)

theorem covered_mono {st st2 : DfsState}
    (h : ∀ e ∈ st.stack, e ∈ st2.stack) {v u : VId}
    (hc : covered st v u) : covered st2 v u := by
  rcases hc with hc | hc
  · exact Or.inl (h _ hc)
  · exact Or.inr (h _ hc)

theorem DoneV_mono {g : Graph} {st st2 : DfsState}
    (h : ∀ e ∈ st.stack, e ∈ st2.stack) {w : VId}
    (hd : DoneV g st w) : DoneV g st2 w :=
  fun u hu => covered_mono h (hd u hu)

theorem DfsStep_refl (g : Graph) (st : DfsState) (hT : TimeInv st)
    (hP : ParentInv st none) : DfsStep g st st := by
  refine ⟨le_refl _, fun u k h => h, fun e he => he, ?_, hT, hP⟩
  intro u hu hnu
  exact absurd hnu hu

theorem DfsStep_trans {g : Graph} {st st1 st2 : DfsState}
    (h1 : DfsStep g st st1) (h2 : DfsStep g st1 st2) : DfsStep g st st2 := by
  obtain ⟨ht1, hv1, hs1, hd1, hT1, hP1⟩ := h1
  obtain ⟨ht2, hv2, hs2, hd2, hT2, hP2⟩ := h2
  refine ⟨le_trans ht1 ht2, fun u k h => hv2 u k (hv1 u k h),
    fun e he => hs2 e (hs1 e he), ?_, hT2, hP2⟩
  intro u hu2 hnu
  cases hmid : findA st1.visits u with
  | none => exact hd2 u hu2 hmid
  | some k =>
    exact DoneV_mono hs2 (hd1 u (by rw [hmid]; exact fun h => by cases h) hnu)

theorem unvisCost_mono {g : Graph} {vis1 vis2 : List (VId × Nat)}
    (h : ∀ u, findA vis2 u = none → findA vis1 u = none) :
    unvisCost g vis2 ≤ unvisCost g vis1 := by
  unfold unvisCost
  apply List.sum_le_sum
  intro p hp
  by_cases h2 : findA vis2 p.1 = none
  · rw [if_pos h2, if_pos (h p.1 h2)]
  · rw [if_neg h2]
    exact Nat.zero_le _

theorem unvisCost_mark_aux {vis : List (VId × Nat)} {v : VId} (t : Nat) :
    ∀ m : List (VId × List VId), v ∈ m.map Prod.fst → findA vis v = none →
    (m.map (fun p =>
        if findA (setA vis v t) p.1 = none then p.2.length + 1 else 0)).sum
        + (nbAt m v).length + 1 ≤
      (m.map (fun p => if findA vis p.1 = none then p.2.length + 1 else 0)).sum
    := by
  intro m
  induction m with
  | nil =>
    intro h
    simp at h
  | cons p rest ih =>
    intro hv hunv
    simp only [List.map_cons, List.sum_cons]
    have hterm : ∀ q : VId × List VId,
        (if findA (setA vis v t) q.1 = none then q.2.length + 1 else 0) ≤
        (if findA vis q.1 = none then q.2.length + 1 else 0) := by
      intro q
      by_cases hq : findA (setA vis v t) q.1 = none
      · rw [if_pos hq]
        have : findA vis q.1 = none := by
          by_cases hqv : q.1 = v
          · rw [hqv, findA_setA_self] at hq
            cases hq
          · rw [findA_setA_ne _ _ hqv] at hq
            exact hq
        rw [if_pos this]
      · rw [if_neg hq]
        exact Nat.zero_le _
    by_cases hp : p.1 = v
    · have hnb : nbAt (p :: rest) v = p.2 := by
        unfold nbAt
        unfold findA
        rw [if_pos hp]
        rfl
      have hterm1 : (if findA vis p.1 = none then p.2.length + 1 else 0) =
          p.2.length + 1 := by
        rw [if_pos (by rw [hp]; exact hunv)]
      have hterm2 :
          (if findA (setA vis v t) p.1 = none then p.2.length + 1 else 0) =
          0 := by
        rw [if_neg]
        rw [hp, findA_setA_self]
        simp
      have hrest : (rest.map (fun p =>
          if findA (setA vis v t) p.1 = none then p.2.length + 1 else 0)).sum ≤
          (rest.map (fun p =>
            if findA vis p.1 = none then p.2.length + 1 else 0)).sum :=
        List.sum_le_sum (fun q hq => hterm q)
      rw [hnb, hterm1, hterm2]
      omega
    · have hv' : v ∈ rest.map Prod.fst := by
        rcases List.mem_cons.mp hv with hv | hv
        · exact absurd hv.symm hp
        · exact hv
      have hnb : nbAt (p :: rest) v = nbAt rest v := by
        simp [nbAt, findA, hp]
      have := ih hv' hunv
      have hte := hterm p
      rw [hnb]
      omega

theorem unvisCost_mark {g : Graph} {vis : List (VId × Nat)} {v : VId} (t : Nat)
    (hv : v ∈ g.nbrs.map Prod.fst) (hunv : findA vis v = none) :
    unvisCost g (setA vis v t) + (nbAt g.nbrs v).length + 1 ≤
      unvisCost g vis :=
  unvisCost_mark_aux t g.nbrs hv hunv

theorem sum_map_succ : ∀ (m : List (VId × List VId)),
    (m.map (fun p => p.2.length + 1)).sum =
      (m.map (fun p => p.2.length)).sum + m.length := by
  intro m
  induction m with
  | nil => rfl
  | cons p rest ih =>
    simp only [List.map_cons, List.sum_cons, List.length_cons, ih]
    omega

theorem nbrs_length_le_verts {g : Graph} (hWF : WF g) :
    g.nbrs.length ≤ g.verts.length := by
  obtain ⟨-, h2, -, h4, -, -, h7, -⟩ := hWF
  have hsub : (g.nbrs.map Prod.fst) ⊆ g.liveIds := by
    intro x hx
    obtain ⟨p, hp, hp1⟩ := List.mem_map.mp hx
    exact hp1 ▸ h7 p hp
  have := (List.subperm_of_subset h4 hsub).length_le
  rw [List.length_map] at this
  unfold Graph.liveIds at this
  rw [List.length_map] at this
  exact this

theorem unvisCost_le_dfsFuel {g : Graph} (hWF : WF g)
    (vis : List (VId × Nat)) : unvisCost g vis + 1 ≤ dfsFuel g := by
  have hlen := nbrs_length_le_verts hWF
  have h1 : unvisCost g vis ≤ (g.nbrs.map (fun p => p.2.length + 1)).sum := by
    unfold unvisCost
    apply List.sum_le_sum
    intro p hp
    by_cases h : findA vis p.1 = none
    · rw [if_pos h]
    · rw [if_neg h]
      exact Nat.zero_le _
  have h2 := sum_map_succ g.nbrs
  unfold dfsFuel
  omega


theorem WF.live_mem_nbrsKeys {g : Graph} (hWF : WF g) {v : VId}
    (hv : v ∈ g.liveIds) : v ∈ g.nbrs.map Prod.fst := by
  obtain ⟨-, -, -, -, -, -, -, h8, -⟩ := hWF
  exact h8 v hv

theorem walkDF_main (g : Graph) (hWF : WF g)
    (hNSL : ∀ v : VId, v ∉ g.nbrsOf v) :
    ∀ fuel : Nat,
      (∀ st v, unvisCost g st.visits + 1 ≤ fuel →
        v ∈ g.nbrs.map Prod.fst →
        findA st.visits v = none →
        TimeInv st → ParentInv st (some v) →
        DfsStep g st (walkDF g fuel st v) ∧
          findA (walkDF g fuel st v).visits v ≠ none) ∧
      (∀ st v tv ns, unvisCost g st.visits + ns.length + 1 ≤ fuel →
        findA st.visits v = some tv →
        TimeInv st → ParentInv st none →
        (∀ n ∈ ns, n ∈ g.nbrsOf v) →
        (∀ u ∈ g.nbrsOf v, u ∉ ns → covered st v u) →
        (∀ u ∈ ns, ∀ k, findA st.visits u = some k →
          k < tv ∨ covered st v u) →
        DfsStep g st (walkDFLoop g fuel st v ns) ∧
          DoneV g (walkDFLoop g fuel st v ns) v) := by
  intro fuel
  induction fuel with
  | zero =>
    constructor
    · intro st v hfuel
      omega
    · intro st v tv ns hfuel
      omega
  | succ fuel ih =>
    obtain ⟨ihE, ihL⟩ := ih
    constructor
    · -- walkDF case
      intro st v hfuel hvkeys hunvis hT hP
      obtain ⟨t, ll, vis, par, stk, ph⟩ := st
      have hunvis' : findA vis v = none := hunvis
      have hmark := unvisCost_mark (t + 1) hvkeys hunvis'
      have hfuel' : unvisCost g (setA vis v (t + 1)) +
          (g.nbrsOf v).length + 1 ≤ fuel := by
        have hf0 : unvisCost g vis + 1 ≤ fuel + 1 := hfuel
        have hlen : (g.nbrsOf v).length = (nbAt g.nbrs v).length := rfl
        omega
      have hvts : findA (setA vis v (t + 1)) v = some (t + 1) :=
        findA_setA_self vis v (t + 1)
      have hT' : TimeInv ⟨t + 1, ll, setA vis v (t + 1), par, stk, ph⟩ := by
        intro u k hk
        by_cases hu : u = v
        · rw [hu, findA_setA_self] at hk
          cases hk
          exact ⟨Nat.le_add_left 1 t, le_refl _⟩
        · rw [findA_setA_ne vis _ hu] at hk
          have hTk : 1 ≤ k ∧ k ≤ t := hT u k hk
          show 1 ≤ k ∧ k ≤ t + 1
          omega
      have hP' : ParentInv ⟨t + 1, ll, setA vis v (t + 1), par, stk, ph⟩
          none := by
        intro m p hm
        obtain ⟨hstk, hvism⟩ := hP m p hm
        refine ⟨hstk, Or.inl ?_⟩
        by_cases hmv : m = v
        · rw [hmv, findA_setA_self]
          exact fun h => by cases h
        · rw [findA_setA_ne vis _ hmv]
          rcases hvism with hvism | hvism
          · exact hvism
          · cases hvism
            exact absurd rfl hmv
      have hvisns : ∀ u ∈ g.nbrsOf v, ∀ k,
          findA (setA vis v (t + 1)) u = some k →
          k < t + 1 ∨
            covered ⟨t + 1, ll, setA vis v (t + 1), par, stk, ph⟩ v u := by
        intro u hu k hk
        have huv : u ≠ v := fun h => hNSL v (h ▸ hu)
        rw [findA_setA_ne vis _ huv] at hk
        have hTk : 1 ≤ k ∧ k ≤ t := hT u k hk
        left
        omega
      obtain ⟨hstepL, hdoneL⟩ := ihL
        ⟨t + 1, ll, setA vis v (t + 1), par, stk, ph⟩ v (t + 1)
        (g.nbrsOf v) hfuel' hvts hT' hP' (fun n hn => hn)
        (fun u hu hnu => absurd hu hnu) hvisns
      constructor
      · show DfsStep g ⟨t, ll, vis, par, stk, ph⟩
          (walkDFLoop g fuel ⟨t + 1, ll, setA vis v (t + 1), par, stk, ph⟩ v
            (g.nbrsOf v))
        obtain ⟨hti, hvi, hsi, hdi, hT2, hP2⟩ := hstepL
        refine ⟨le_trans (Nat.le_succ t) hti, ?_, hsi, ?_, hT2, hP2⟩
        · intro u k hk
          have huv : u ≠ v := fun h => by
            rw [h, hunvis] at hk
            cases hk
          exact hvi u k (by rw [findA_setA_ne vis _ huv]; exact hk)
        · intro u hu2 hnu
          by_cases huv : u = v
          · rw [huv]
            exact hdoneL
          · exact hdi u hu2 (by rw [findA_setA_ne vis _ huv]; exact hnu)
      · show findA (walkDFLoop g fuel
          ⟨t + 1, ll, setA vis v (t + 1), par, stk, ph⟩ v
          (g.nbrsOf v)).visits v ≠ none
        have := hstepL.2.1 v (t + 1) hvts
        rw [this]
        exact fun h => by cases h
    · -- walkDFLoop case
      intro st v tv ns hfuel hvts hT hP hns hcov hvisns
      obtain ⟨t, ll, vis, par, stk, ph⟩ := st
      have hfuel0 : unvisCost g vis + ns.length + 1 ≤ fuel + 1 := hfuel
      clear hfuel
      cases ns with
      | nil =>
        refine ⟨DfsStep_refl g _ hT hP, ?_⟩
        intro u hu
        exact hcov u hu (List.not_mem_nil u)
      | cons n rest =>
        simp only [List.length_cons] at hfuel0
        have hn : n ∈ g.nbrsOf v := hns n (List.mem_cons_self n rest)
        by_cases hvisn : findA vis n = none
        · -- unvisited neighbor: descend
          simp only [walkDFLoop, if_pos hvisn]
          have hnkeys : n ∈ g.nbrs.map Prod.fst :=
            hWF.live_mem_nbrsKeys (hWF.nb_live hn).1
          have hfuelC : unvisCost g vis + 1 ≤ fuel := by omega
          have hTC : TimeInv ⟨t, ll, vis, setA par n v, (v, n) :: stk, ph⟩ :=
            hT
          have hPC : ParentInv ⟨t, ll, vis, setA par n v, (v, n) :: stk, ph⟩
              (some n) := by
            intro m p hm
            by_cases hmn : m = n
            · rw [hmn, findA_setA_self] at hm
              cases hm
              exact ⟨by rw [hmn]; exact List.mem_cons_self _ _,
                Or.inr (by rw [hmn])⟩
            · rw [findA_setA_ne par _ hmn] at hm
              obtain ⟨hstk, hvism⟩ := hP m p hm
              refine ⟨List.mem_cons_of_mem _ hstk, ?_⟩
              rcases hvism with hvism | hvism
              · exact Or.inl hvism
              · cases hvism
          obtain ⟨hstepC, hmarkC⟩ := ihE
            ⟨t, ll, vis, setA par n v, (v, n) :: stk, ph⟩ n hfuelC hnkeys
            hvisn hTC hPC
          obtain ⟨htiC, hviC, hsiC, hdiC, hT2, hP2⟩ := hstepC
          have hfuelR : unvisCost g
              (walkDF g fuel ⟨t, ll, vis, setA par n v, (v, n) :: stk, ph⟩
                n).visits + rest.length + 1 ≤ fuel := by
            have hA := unvisCost_mark 1 hnkeys hvisn
            have hB : unvisCost g
                (walkDF g fuel ⟨t, ll, vis, setA par n v, (v, n) :: stk, ph⟩
                  n).visits ≤ unvisCost g (setA vis n 1) := by
              apply unvisCost_mono
              intro u hu
              by_cases hun : u = n
              · rw [hun] at hu
                exact absurd hu hmarkC
              · rw [findA_setA_ne vis _ hun]
                cases hval : findA vis u with
                | none => rfl
                | some k =>
                  have := hviC u k hval
                  rw [this] at hu
                  cases hu
            omega
          have hvtsR := hviC v tv hvts
          have hcovR : ∀ u ∈ g.nbrsOf v, u ∉ rest →
              covered (walkDF g fuel
                ⟨t, ll, vis, setA par n v, (v, n) :: stk, ph⟩ n) v u := by
            intro u hu hnu
            by_cases hun : u = n
            · rw [hun]
              exact covered_mono hsiC (Or.inl (List.mem_cons_self _ _))
            · have hunotns : u ∉ n :: rest := by
                intro hmem
                rcases List.mem_cons.mp hmem with hmem | hmem
                · exact hun hmem
                · exact hnu hmem
              have := hcov u hu hunotns
              exact covered_mono hsiC (covered_mono
                (fun e he => List.mem_cons_of_mem _ he) this)
          have hvisnsR : ∀ u ∈ rest, ∀ k,
              findA (walkDF g fuel
                ⟨t, ll, vis, setA par n v, (v, n) :: stk, ph⟩
                n).visits u = some k →
              k < tv ∨ covered (walkDF g fuel
                ⟨t, ll, vis, setA par n v, (v, n) :: stk, ph⟩ n) v u := by
            intro u hu k hk
            cases hval : findA vis u with
            | some k0 =>
              have hpres := hviC u k0 hval
              have hkk : k = k0 := by
                rw [hpres] at hk
                exact (Option.some.inj hk).symm
              subst hkk
              rcases hvisns u (List.mem_cons_of_mem _ hu) k hval with
                  hlt | hcv
              · exact Or.inl hlt
              · exact Or.inr (covered_mono hsiC (covered_mono
                  (fun e he => List.mem_cons_of_mem _ he) hcv))
            | none =>
              have hdone := hdiC u (by rw [hk]; exact fun h => by cases h)
                hval
              have hvnb : v ∈ g.nbrsOf u :=
                hWF.symmNb (hns u (List.mem_cons_of_mem _ hu))
              rcases hdone v hvnb with hc | hc
              · exact Or.inr (Or.inr hc)
              · exact Or.inr (Or.inl hc)
          obtain ⟨hstepR, hdoneR⟩ := ihL
            (walkDF g fuel ⟨t, ll, vis, setA par n v, (v, n) :: stk, ph⟩ n)
            v tv rest hfuelR hvtsR hT2 hP2
            (fun m hm => hns m (List.mem_cons_of_mem _ hm)) hcovR hvisnsR
          obtain ⟨htiR, hviR, hsiR, hdiR, hT3, hP3⟩ := hstepR
          refine ⟨⟨le_trans htiC htiR, ?_, ?_, ?_, hT3, hP3⟩, hdoneR⟩
          · intro u k hk
            exact hviR u k (hviC u k hk)
          · intro e he
            exact hsiR e (hsiC e (List.mem_cons_of_mem _ he))
          · intro u hu2 hnu
            cases hmid : findA (walkDF g fuel
                ⟨t, ll, vis, setA par n v, (v, n) :: stk, ph⟩
                n).visits u with
            | none => exact hdiR u hu2 hmid
            | some k =>
              exact DoneV_mono hsiR
                (hdiC u (by rw [hmid]; exact fun h => by cases h) hnu)
        · -- visited neighbor
          simp only [walkDFLoop, if_neg hvisn]
          by_cases hcond : findA par v ≠ some n ∧ mgetN vis n < mgetN vis v
          · rw [if_pos hcond]
            have hP' : ParentInv ⟨t, ll, vis, par, (v, n) :: stk, ph⟩
                none := by
              intro m p hm
              obtain ⟨hstk, hvism⟩ := hP m p hm
              exact ⟨List.mem_cons_of_mem _ hstk, hvism⟩
            have hcov' : ∀ u ∈ g.nbrsOf v, u ∉ rest →
                covered ⟨t, ll, vis, par, (v, n) :: stk, ph⟩ v u := by
              intro u hu hnu
              by_cases hun : u = n
              · rw [hun]
                exact Or.inl (List.mem_cons_self _ _)
              · have hunotns : u ∉ n :: rest := by
                  intro hmem
                  rcases List.mem_cons.mp hmem with hmem | hmem
                  · exact hun hmem
                  · exact hnu hmem
                exact covered_mono (fun e he => List.mem_cons_of_mem _ he)
                  (hcov u hu hunotns)
            have hvisns' : ∀ u ∈ rest, ∀ k, findA vis u = some k →
                k < tv ∨ covered ⟨t, ll, vis, par, (v, n) :: stk, ph⟩ v u := by
              intro u hu k hk
              rcases hvisns u (List.mem_cons_of_mem _ hu) k hk with hlt | hcv
              · exact Or.inl hlt
              · exact Or.inr (covered_mono
                  (fun e he => List.mem_cons_of_mem _ he) hcv)
            obtain ⟨hstepR, hdoneR⟩ := ihL
              ⟨t, ll, vis, par, (v, n) :: stk, ph⟩ v tv rest
              (by show unvisCost g vis + rest.length + 1 ≤ fuel; omega)
              hvts hT hP'
              (fun m hm => hns m (List.mem_cons_of_mem _ hm)) hcov' hvisns'
            obtain ⟨htiR, hviR, hsiR, hdiR, hT3, hP3⟩ := hstepR
            refine ⟨⟨htiR, hviR, ?_, ?_, hT3, hP3⟩, hdoneR⟩
            · intro e he
              exact hsiR e (List.mem_cons_of_mem _ he)
            · intro u hu2 hnu
              exact hdiR u hu2 hnu
          · rw [if_neg hcond]
            have hcov' : ∀ u ∈ g.nbrsOf v, u ∉ rest →
                covered ⟨t, ll, vis, par, stk, ph⟩ v u := by
              intro u hu hnu
              by_cases hun : u = n
              · rcases not_and_or.mp hcond with hc | hc
                · have hpar : findA par v = some n := not_not.mp hc
                  rw [hun]
                  exact Or.inr (hP v n hpar).1
                · have hge : ¬ mgetN vis n < mgetN vis v := hc
                  have hvv : mgetN vis v = tv := by
                    unfold mgetN
                    rw [hvts]
                    rfl
                  cases hkn : findA vis n with
                  | none => exact absurd hkn hvisn
                  | some k =>
                    have hkn' : mgetN vis n = k := by
                      unfold mgetN
                      rw [hkn]
                      rfl
                    rcases hvisns n (List.mem_cons_self n rest) k hkn with
                        hlt | hcv
                    · rw [hkn', hvv] at hge
                      omega
                    · rw [hun]
                      exact hcv
              · have hunotns : u ∉ n :: rest := by
                  intro hmem
                  rcases List.mem_cons.mp hmem with hmem | hmem
                  · exact hun hmem
                  · exact hnu hmem
                exact hcov u hu hunotns
            have hvisns' : ∀ u ∈ rest, ∀ k, findA vis u = some k →
                k < tv ∨ covered ⟨t, ll, vis, par, stk, ph⟩ v u :=
              fun u hu k hk => hvisns u (List.mem_cons_of_mem _ hu) k hk
            exact ihL ⟨t, ll, vis, par, stk, ph⟩ v tv rest
              (by show unvisCost g vis + rest.length + 1 ≤ fuel; omega) hvts
              hT hP (fun m hm => hns m (List.mem_cons_of_mem _ hm))
              hcov' hvisns'


theorem walkDF_edges (g : Graph) :
    ∀ fuel : Nat,
      (∀ st v, (∀ e ∈ st.stack, e.2 ∈ g.nbrsOf e.1) →
        ∀ e ∈ (walkDF g fuel st v).stack, e.2 ∈ g.nbrsOf e.1) ∧
      (∀ st v ns, (∀ e ∈ st.stack, e.2 ∈ g.nbrsOf e.1) →
        (∀ n ∈ ns, n ∈ g.nbrsOf v) →
        ∀ e ∈ (walkDFLoop g fuel st v ns).stack, e.2 ∈ g.nbrsOf e.1) := by
  intro fuel
  induction fuel with
  | zero =>
    constructor
    · intro st v h
      exact h
    · intro st v ns h hns
      cases ns with
      | nil => exact h
      | cons n rest => exact h
  | succ fuel ih =>
    obtain ⟨ihE, ihL⟩ := ih
    constructor
    · intro st v h
      obtain ⟨t, ll, vis, par, stk, ph⟩ := st
      exact ihL ⟨t + 1, ll, setA vis v (t + 1), par, stk, ph⟩ v (g.nbrsOf v)
        h (fun n hn => hn)
    · intro st v ns h hns
      obtain ⟨t, ll, vis, par, stk, ph⟩ := st
      cases ns with
      | nil => exact h
      | cons n rest =>
        have hn : n ∈ g.nbrsOf v := hns n (List.mem_cons_self n rest)
        have hrest : ∀ m ∈ rest, m ∈ g.nbrsOf v :=
          fun m hm => hns m (List.mem_cons_of_mem _ hm)
        by_cases hvisn : findA vis n = none
        · simp only [walkDFLoop, if_pos hvisn]
          apply ihL _ _ _ _ hrest
          apply ihE
          intro e he
          rcases List.mem_cons.mp he with he | he
          · rw [he]
            exact hn
          · exact h e he
        · simp only [walkDFLoop, if_neg hvisn]
          by_cases hback : findA par v ≠ some n ∧ mgetN vis n < mgetN vis v
          · rw [if_pos hback]
            apply ihL _ _ _ ?_ hrest
            intro e he
            rcases List.mem_cons.mp he with he | he
            · rw [he]
              exact hn
            · exact h e he
          · rw [if_neg hback]
            exact ihL _ _ _ h hrest

theorem walkDFRoots_edges (g : Graph) :
    ∀ (roots : List VId) (st : DfsState),
      (∀ e ∈ st.stack, e.2 ∈ g.nbrsOf e.1) →
      ∀ e ∈ (walkDFRoots g st roots).stack, e.2 ∈ g.nbrsOf e.1 := by
  intro roots
  induction roots with
  | nil =>
    intro st h
    exact h
  | cons v rest ih =>
    intro st h
    obtain ⟨t, ll, vis, par, stk, ph⟩ := st
    by_cases hv : (findA vis v).isSome
    · simp only [walkDFRoots, if_pos hv]
      exact ih _ h
    · simp only [walkDFRoots, if_neg hv]
      exact ih _ ((walkDF_edges g (dfsFuel g)).1 _ v h)

theorem walkDFRoots_main (g : Graph) (hWF : WF g)
    (hNSL : ∀ v : VId, v ∉ g.nbrsOf v) :
    ∀ (roots : List VId) (st : DfsState),
      (∀ r ∈ roots, r ∈ g.nbrs.map Prod.fst) →
      TimeInv st → ParentInv st none →
      DfsStep g st (walkDFRoots g st roots) ∧
        ∀ r ∈ roots, findA (walkDFRoots g st roots).visits r ≠ none := by
  intro roots
  induction roots with
  | nil =>
    intro st hroots hT hP
    exact ⟨DfsStep_refl g st hT hP,
      fun r hr => absurd hr (List.not_mem_nil r)⟩
  | cons v rest ih =>
    intro st hroots hT hP
    obtain ⟨t, ll, vis, par, stk, ph⟩ := st
    by_cases hv : (findA vis v).isSome
    · simp only [walkDFRoots, if_pos hv]
      obtain ⟨hstep, hvisited⟩ := ih ⟨t, ll, vis, par, stk, ph⟩
        (fun r hr => hroots r (List.mem_cons_of_mem _ hr)) hT hP
      refine ⟨hstep, ?_⟩
      intro r hr
      rcases List.mem_cons.mp hr with hr | hr
      · obtain ⟨k, hk⟩ := Option.isSome_iff_exists.mp hv
        have := hstep.2.1 r k (by rw [hr]; exact hk)
        rw [this]
        exact fun h => by cases h
      · exact hvisited r hr
    · simp only [walkDFRoots, if_neg hv]
      have hunvis : findA vis v = none := by
        cases hval : findA vis v with
        | none => rfl
        | some k => rw [hval] at hv; exact absurd rfl hv
      have hP' : ParentInv ⟨t, ll, vis, par, stk, ph⟩ (some v) := by
        intro m p hm
        obtain ⟨hstk, hvism⟩ := hP m p hm
        refine ⟨hstk, ?_⟩
        rcases hvism with hvism | hvism
        · exact Or.inl hvism
        · cases hvism
      obtain ⟨hstepC, hmarkC⟩ := (walkDF_main g hWF hNSL (dfsFuel g)).1
        ⟨t, ll, vis, par, stk, ph⟩ v
        (unvisCost_le_dfsFuel hWF _)
        (hroots v (List.mem_cons_self v rest)) hunvis hT hP'
      obtain ⟨hstepR, hvisited⟩ := ih
        (walkDF g (dfsFuel g) ⟨t, ll, vis, par, stk, ph⟩ v)
        (fun r hr => hroots r (List.mem_cons_of_mem _ hr))
        hstepC.2.2.2.2.1 hstepC.2.2.2.2.2
      refine ⟨DfsStep_trans hstepC hstepR, ?_⟩
      intro r hr
      rcases List.mem_cons.mp hr with hr | hr
      · cases hval : findA
            (walkDF g (dfsFuel g) ⟨t, ll, vis, par, stk, ph⟩ v).visits r with
        | none =>
          rw [hr] at hval
          exact absurd hval hmarkC
        | some k =>
          have := hstepR.2.1 r k hval
          rw [this]
          exact fun h => by cases h
      · exact hvisited r hr

theorem walkDFRoots_covers (g : Graph) (hWF : WF g)
    (hNSL : ∀ v : VId, v ∉ g.nbrsOf v) :
    (∀ e ∈ (walkDFRoots g {} g.liveIds).stack, e.2 ∈ g.nbrsOf e.1) ∧
    (∀ u w, u ∈ g.liveIds → w ∈ g.nbrsOf u →
      covered (walkDFRoots g {} g.liveIds) u w) := by
  constructor
  · apply walkDFRoots_edges
    intro e he
    exact absurd he (List.not_mem_nil e)
  · intro u w hu hw
    obtain ⟨hstep, hvisited⟩ := walkDFRoots_main g hWF hNSL g.liveIds {}
      (fun r hr => hWF.live_mem_nbrsKeys hr)
      (fun u k h => by cases h)
      (fun n p h => by cases h)
    exact (hstep.2.2.2.1 u (hvisited u hu) rfl) w hw

theorem export_edges (g : Graph) (hWF : WF g)
    (hNSL : ∀ v : VId, v ∉ g.nbrsOf v) :
    ∃ conns, g.walkDepthFirstIdx = .ok conns ∧
      (∀ p ∈ conns, g.hasEdgeI p.1 p.2 = true) ∧
      (∀ i j : Int, g.hasEdgeI i j = true → (i, j) ∈ conns ∨ (j, i) ∈ conns)
    := by
  obtain ⟨hsound, hcover⟩ := walkDFRoots_covers g hWF hNSL
  have hok : ∀ e ∈ (walkDFRoots g {} g.liveIds).stack.reverse,
      ∃ x, (fun e : VId × VId =>
        match g.getIndexI e.1, g.getIndexI e.2 with
        | some i, some j => Except.ok (i, j)
        | _, _ => Except.error (JsError.evalErr "Vertex doesnt exist")) e =
        .ok x := by
    intro e he
    rw [List.mem_reverse] at he
    have hedge := hsound e he
    obtain ⟨hlive2, hlive1⟩ := hWF.nb_live hedge
    obtain ⟨i1, hi1, -⟩ := live_getIndex hWF hlive1
    obtain ⟨i2, hi2, -⟩ := live_getIndex hWF hlive2
    refine ⟨(i1, i2), ?_⟩
    simp only [hi1, hi2]
  obtain ⟨conns, hconns⟩ := mapME_ok_of_forall hok
  refine ⟨conns, hconns, ?_, ?_⟩
  · intro p hp
    obtain ⟨e, he, hfe⟩ := mapME_ok_mem hconns p hp
    rw [List.mem_reverse] at he
    have hedge := hsound e he
    cases h1 : g.getIndexI e.1 with
    | none => simp only [h1] at hfe; cases hfe
    | some i =>
      cases h2 : g.getIndexI e.2 with
      | none => simp only [h1, h2] at hfe; cases hfe
      | some j =>
        simp only [h1, h2] at hfe
        cases hfe
        have hv1 : g.getVertexI i = some e.1 := getIndexI_inv hWF h1
        have hv2 : g.getVertexI j = some e.2 := getIndexI_inv hWF h2
        unfold Graph.hasEdgeI
        rw [hv1, hv2]
        exact decide_eq_true hedge
  · intro i j hij
    unfold Graph.hasEdgeI at hij
    cases hv1 : g.getVertexI i with
    | none => rw [hv1] at hij; cases hij
    | some vi =>
      cases hv2 : g.getVertexI j with
      | none => rw [hv1, hv2] at hij; cases hij
      | some vj =>
        rw [hv1, hv2] at hij
        have hmem : vj ∈ g.nbrsOf vi := of_decide_eq_true hij
        have hlivei : vi ∈ g.liveIds :=
          List.mem_map.mpr ⟨(i, vi), findA_mem hv1, rfl⟩
        have hi1 : g.getIndexI vi = some i := getIndexI_of_getVertexI hWF hv1
        have hj1 : g.getIndexI vj = some j := getIndexI_of_getVertexI hWF hv2
        rcases hcover vi vj hlivei hmem with hc | hc
        · left
          refine mapME_mem_fwd hconns (vi, vj)
            (List.mem_reverse.mpr hc) (i, j) ?_
          simp only [hi1, hj1]
        · right
          refine mapME_mem_fwd hconns (vj, vi)
            (List.mem_reverse.mpr hc) (j, i) ?_
          simp only [hi1, hj1]

theorem ratIntCast_num {q : ℚ} (h : q.isInt = true) : ((q.num : ℚ)) = q := by
  have hden : q.den = 1 := by
    simp [Rat.isInt] at h
    exact h
  have := Rat.num_div_den q
  rw [hden] at this
  simpa using this

theorem addVertex_ok_keys {g g' : Graph} {q : ℚ}
    (h : g.addVertex q = (g', none)) :
    q.isInt = true ∧ g'.vertexKeys = g.vertexKeys ++ [q.num] := by
  unfold Graph.addVertex at h
  by_cases hq : q.isInt
  · simp only [hq, not_true, if_false] at h
    obtain ⟨vs, ix, nb, nid⟩ := g
    by_cases hf : (findA vs q.num).isSome = true
    · simp only [Graph.addVertexCore, hf, if_true] at h
      exact absurd (congrArg Prod.snd h) (by simp)
    · simp only [Graph.addVertexCore, hf, Bool.false_eq_true, if_false] at h
      have hg' : g' = ⟨vs ++ [(q.num, nid)], ix ++ [(nid, q.num)],
          nb ++ [(nid, [])], nid + 1⟩ := (congrArg Prod.fst h).symm
      refine ⟨hq, ?_⟩
      rw [hg']
      show (vs ++ [(q.num, nid)]).map _ = vs.map _ ++ [q.num]
      rw [List.map_append]
      rfl
  · simp only [hq, not_false_iff, if_true] at h
    exact absurd (congrArg Prod.snd h) (by simp)

theorem addVertex_ok_noEdges {g g' : Graph} {q : ℚ}
    (h : g.addVertex q = (g', none)) (hno : ∀ v : VId, g.nbrsOf v = []) :
    ∀ v : VId, g'.nbrsOf v = [] := by
  unfold Graph.addVertex at h
  by_cases hq : q.isInt
  · simp only [hq, not_true, if_false] at h
    obtain ⟨vs, ix, nb, nid⟩ := g
    by_cases hf : (findA vs q.num).isSome = true
    · simp only [Graph.addVertexCore, hf, if_true] at h
      exact absurd (congrArg Prod.snd h) (by simp)
    · simp only [Graph.addVertexCore, hf, Bool.false_eq_true, if_false] at h
      have hg' : g' = ⟨vs ++ [(q.num, nid)], ix ++ [(nid, q.num)],
          nb ++ [(nid, [])], nid + 1⟩ := (congrArg Prod.fst h).symm
      intro v
      rw [hg']
      show nbAt (nb ++ [(nid, [])]) v = []
      unfold nbAt
      rw [findA_append]
      cases hv : findA nb v with
      | none =>
        unfold findA
        by_cases hnv : nid = v
        · rw [if_pos (by show (nid, ([] : List VId)).1 = v; exact hnv)]
          rfl
        · rw [if_neg (by show ¬ (nid, ([] : List VId)).1 = v; exact hnv)]
          rfl
      | some l =>
        have := hno v
        unfold Graph.nbrsOf nbAt at this
        rw [hv] at this
        exact this
  · simp only [hq, not_false_iff, if_true] at h
    exact absurd (congrArg Prod.snd h) (by simp)

theorem importVerts_spec :
    ∀ (qs : List ℚ) (g g' : Graph), importVerts qs g = (g', none) →
      (∀ q ∈ qs, q.isInt = true) ∧
      g'.vertexKeys = g.vertexKeys ++ qs.map (fun q => q.num) ∧
      (WF g → WF g') ∧
      ((∀ v : VId, g.nbrsOf v = []) → (∀ v : VId, g'.nbrsOf v = [])) := by
  intro qs
  induction qs with
  | nil =>
    intro g g' h
    simp only [importVerts] at h
    have hg : g = g' := congrArg Prod.fst h
    rw [← hg]
    exact ⟨fun q hq => absurd hq (List.not_mem_nil q),
      by simp, fun h => h, fun h => h⟩
  | cons q rest ih =>
    intro g g' h
    simp only [importVerts] at h
    cases hadd : g.addVertex q with
    | mk g1 err =>
      cases err with
      | some e =>
        rw [hadd] at h
        exact absurd (congrArg Prod.snd h) (by simp)
      | none =>
        rw [hadd] at h
        obtain ⟨hint, hkeys⟩ := addVertex_ok_keys hadd
        obtain ⟨hints, hkeys2, hWF2, hno2⟩ := ih g1 g' h
        refine ⟨?_, ?_, ?_, ?_⟩
        · intro p hp
          rcases List.mem_cons.mp hp with hp | hp
          · rw [hp]
            exact hint
          · exact hints p hp
        · rw [hkeys2, hkeys]
          simp
        · intro hWFg
          have : WF g1 := by
            have := addVertex_WF hWFg q
            rw [hadd] at this
            exact this
          exact hWF2 this
        · intro hno
          exact hno2 (addVertex_ok_noEdges hadd hno)

theorem hasEdgeI_noEdges {g : Graph} (hno : ∀ v : VId, g.nbrsOf v = [])
    (i j : Int) : g.hasEdgeI i j = false := by
  unfold Graph.hasEdgeI
  cases hv1 : g.getVertexI i with
  | none => rfl
  | some vi =>
    cases hv2 : g.getVertexI j with
    | none => rfl
    | some vj =>
      show decide (vj ∈ g.nbrsOf vi) = false
      rw [hno vi]
      simp

theorem addEdgeCore_NSL_sorted {g : Graph} (hWF : WF g)
    (hN : ∀ v : VId, v ∉ g.nbrsOf v) {i j : Int} (hle : i ≤ j) (hij : i ≠ j) :
    ∀ v : VId, v ∉ ((g.addEdgeCore i j).1).nbrsOf v := by
  by_cases hok : (g.addEdgeCore i j).2 = none
  · obtain ⟨vs, ix, nb, nid⟩ := g
    obtain ⟨vf, vt, m, hf, ht, hc, hg1⟩ := addEdgeCore_pair hle
      (Prod.ext_iff.mpr ⟨rfl, hok⟩)
    intro v hv
    simp only [hg1] at hv
    have hv' : v ∈ nbAt m v := hv
    rcases (connect_mem_nbAt hc v v).mp hv' with hmem | ⟨h1, h2⟩ | ⟨h1, h2⟩
    · exact hN v hmem
    · exact vid_injective hWF hf ht hij (h1 ▸ h2.symm ▸ rfl)
    · exact vid_injective hWF hf ht hij (h2 ▸ h1.symm ▸ rfl)
  · have hsome : ((g.addEdgeCore i j).2).isSome = true := by
      cases hval : (g.addEdgeCore i j).2 with
      | none => exact absurd hval hok
      | some e => rfl
    rw [addEdgeCore_atomic g i j hsome]
    exact hN

theorem addEdgeCore_NSL {g : Graph} (hWF : WF g)
    (hN : ∀ v : VId, v ∉ g.nbrsOf v) {i j : Int} (hij : i ≠ j) :
    ∀ v : VId, v ∉ ((g.addEdgeCore i j).1).nbrsOf v := by
  rcases le_or_lt i j with hle | hlt
  · exact addEdgeCore_NSL_sorted hWF hN hle hij
  · rw [addEdgeCore_comm]
    exact addEdgeCore_NSL_sorted hWF hN (le_of_lt hlt) (Ne.symm hij)

theorem addEdge_NSL {g : Graph} (hWF : WF g)
    (hN : ∀ v : VId, v ∉ g.nbrsOf v) {q r : ℚ} (hqr : q.num ≠ r.num) :
    ∀ v : VId, v ∉ ((g.addEdge q r).1).nbrsOf v := by
  unfold Graph.addEdge
  by_cases hq : q.isInt
  · by_cases hr : r.isInt
    · simp only [hq, hr, not_true, if_false]
      exact addEdgeCore_NSL hWF hN hqr
    · simp only [hq, hr, not_true, not_false_iff, if_false, if_true]
      exact hN
  · simp only [hq, not_false_iff, if_true]
    exact hN


theorem getVertexI_inj {g : Graph} (hWF : WF g) {i i' : Int} {v : VId}
    (h1 : g.getVertexI i = some v) (h2 : g.getVertexI i' = some v) :
    i = i' := by
  have ha := getIndexI_of_getVertexI hWF h1
  have hb := getIndexI_of_getVertexI hWF h2
  rw [ha] at hb
  exact Option.some.inj hb

theorem addEdgeCore_ok_hasEdge_sorted {g g' : Graph} (hWF : WF g)
    {i0 j0 : Int} (hle : i0 ≤ j0) (h : g.addEdgeCore i0 j0 = (g', none)) :
    g'.verts = g.verts ∧
    ∀ i j : Int, (g'.hasEdgeI i j = true ↔
      (g.hasEdgeI i j = true ∨ (i = i0 ∧ j = j0) ∨ (i = j0 ∧ j = i0))) := by
  obtain ⟨vs, ix, nb, nid⟩ := g
  have hsnd : (Graph.addEdgeCore ⟨vs, ix, nb, nid⟩ i0 j0).2 = none := by
    rw [h]
  obtain ⟨vf, vt, m, hf, ht, hc, hg1⟩ := addEdgeCore_pair hle
    (Prod.ext_iff.mpr ⟨rfl, hsnd⟩)
  have hfst : (Graph.addEdgeCore ⟨vs, ix, nb, nid⟩ i0 j0).1 = g' := by
    rw [h]
  have hg' : g' = ⟨vs, ix, m, nid⟩ := by
    rw [← hfst]
    exact hg1
  subst hg'
  refine ⟨rfl, ?_⟩
  intro i j
  cases hvi : findA vs i with
  | none =>
    simp only [Graph.hasEdgeI, Graph.getVertexI, hvi]
    constructor
    · intro hh
      cases hh
    · intro hr
      rcases hr with hr | ⟨h1, h2⟩ | ⟨h1, h2⟩
      · exact hr
      · rw [h1, hf] at hvi
        cases hvi
      · rw [h1, ht] at hvi
        cases hvi
  | some vi =>
    cases hvj : findA vs j with
    | none =>
      simp only [Graph.hasEdgeI, Graph.getVertexI, hvi, hvj]
      constructor
      · intro hh
        cases hh
      · intro hr
        rcases hr with hr | ⟨h1, h2⟩ | ⟨h1, h2⟩
        · exact hr
        · rw [h2, ht] at hvj
          cases hvj
        · rw [h2, hf] at hvj
          cases hvj
    | some vj =>
      simp only [Graph.hasEdgeI, Graph.getVertexI, Graph.nbrsOf, hvi, hvj]
      rw [decide_eq_true_eq, decide_eq_true_eq]
      rw [connect_mem_nbAt hc vi vj]
      constructor
      · rintro (hmem | ⟨h1, h2⟩ | ⟨h1, h2⟩)
        · exact Or.inl hmem
        · refine Or.inr (Or.inl ⟨?_, ?_⟩)
          · exact getVertexI_inj hWF (show Graph.getVertexI
              ⟨vs, ix, nb, nid⟩ i = some vf from by
                show findA vs i = some vf
                rw [hvi, h1]) hf
          · exact getVertexI_inj hWF (show Graph.getVertexI
              ⟨vs, ix, nb, nid⟩ j = some vt from by
                show findA vs j = some vt
                rw [hvj, h2]) ht
        · refine Or.inr (Or.inr ⟨?_, ?_⟩)
          · exact getVertexI_inj hWF (show Graph.getVertexI
              ⟨vs, ix, nb, nid⟩ i = some vt from by
                show findA vs i = some vt
                rw [hvi, h1]) ht
          · exact getVertexI_inj hWF (show Graph.getVertexI
              ⟨vs, ix, nb, nid⟩ j = some vf from by
                show findA vs j = some vf
                rw [hvj, h2]) hf
      · rintro (hmem | ⟨h1, h2⟩ | ⟨h1, h2⟩)
        · exact Or.inl hmem
        · rw [h1] at hvi
          rw [h2] at hvj
          rw [hf] at hvi
          rw [ht] at hvj
          exact Or.inr (Or.inl ⟨(Option.some.inj hvi).symm,
            (Option.some.inj hvj).symm⟩)
        · rw [h1] at hvi
          rw [h2] at hvj
          rw [ht] at hvi
          rw [hf] at hvj
          exact Or.inr (Or.inr ⟨(Option.some.inj hvi).symm,
            (Option.some.inj hvj).symm⟩)

theorem addEdge_ok_hasEdge {g g' : Graph} (hWF : WF g) {q r : ℚ}
    (h : g.addEdge q r = (g', none)) :
    q.isInt = true ∧ r.isInt = true ∧ g'.verts = g.verts ∧ WF g' ∧
    ∀ i j : Int, (g'.hasEdgeI i j = true ↔
      (g.hasEdgeI i j = true ∨ (i = q.num ∧ j = r.num) ∨
        (i = r.num ∧ j = q.num))) := by
  have hWF' : WF g' := by
    have := addEdge_WF hWF q r
    rw [h] at this
    exact this
  unfold Graph.addEdge at h
  by_cases hq : q.isInt
  · by_cases hr : r.isInt
    · simp only [hq, hr, not_true, if_false] at h
      rcases le_or_lt q.num r.num with hle | hlt
      · obtain ⟨hverts, hiff⟩ := addEdgeCore_ok_hasEdge_sorted hWF hle h
        exact ⟨hq, hr, hverts, hWF', hiff⟩
      · rw [addEdgeCore_comm] at h
        obtain ⟨hverts, hiff⟩ :=
          addEdgeCore_ok_hasEdge_sorted hWF (le_of_lt hlt) h
        refine ⟨hq, hr, hverts, hWF', ?_⟩
        intro i j
        rw [hiff i j]
        tauto
    · simp only [hq, hr, not_true, not_false_iff, if_false, if_true] at h
      exact absurd (congrArg Prod.snd h) (by simp)
  · simp only [hq, not_false_iff, if_true] at h
    exact absurd (congrArg Prod.snd h) (by simp)

theorem importEdges_spec :
    ∀ (es : List EdgeData) (g g' : Graph), WF g →
      importEdges es g = (g', none) →
      WF g' ∧ g'.verts = g.verts ∧
      (∀ e ∈ es, e.fromIdx.isInt = true ∧ e.toIdx.isInt = true) ∧
      ((∀ e ∈ es, e.fromIdx.num ≠ e.toIdx.num) →
        (∀ v : VId, v ∉ g.nbrsOf v) → (∀ v : VId, v ∉ g'.nbrsOf v)) ∧
      (∀ i j : Int, (g'.hasEdgeI i j = true ↔
        (g.hasEdgeI i j = true ∨
          ∃ e ∈ es, (e.fromIdx.num = i ∧ e.toIdx.num = j) ∨
            (e.fromIdx.num = j ∧ e.toIdx.num = i)))) := by
  intro es
  induction es with
  | nil =>
    intro g g' hWF h
    simp only [importEdges] at h
    have hg : g = g' := congrArg Prod.fst h
    subst hg
    refine ⟨hWF, rfl, fun e he => absurd he (List.not_mem_nil e),
      fun _ hN => hN, ?_⟩
    intro i j
    simp
  | cons e rest ih =>
    intro g g' hWF h
    simp only [importEdges] at h
    cases haddE : g.addEdge e.fromIdx e.toIdx with
    | mk g1 err =>
      cases err with
      | some er =>
        rw [haddE] at h
        exact absurd (congrArg Prod.snd h) (by simp)
      | none =>
        rw [haddE] at h
        obtain ⟨hqi, hri, hverts1, hWF1, hiff1⟩ :=
          addEdge_ok_hasEdge hWF haddE
        obtain ⟨hWF', hverts2, hints, hNSL2, hiff2⟩ := ih g1 g' hWF1 h
        refine ⟨hWF', hverts2.trans hverts1, ?_, ?_, ?_⟩
        · intro p hp
          rcases List.mem_cons.mp hp with hp | hp
          · rw [hp]
            exact ⟨hqi, hri⟩
          · exact hints p hp
        · intro hne hN
          have hne1 : e.fromIdx.num ≠ e.toIdx.num :=
            hne e (List.mem_cons_self e rest)
          have hN1 : ∀ v : VId, v ∉ g1.nbrsOf v := by
            have := addEdge_NSL hWF hN hne1
            rw [haddE] at this
            exact this
          exact hNSL2 (fun p hp => hne p (List.mem_cons_of_mem _ hp)) hN1
        · intro i j
          rw [hiff2 i j, hiff1 i j]
          constructor
          · rintro ((hg | hp) | ⟨x, hx, hpx⟩)
            · exact Or.inl hg
            · exact Or.inr ⟨e, List.mem_cons_self e rest, by tauto⟩
            · exact Or.inr ⟨x, List.mem_cons_of_mem _ hx, hpx⟩
          · rintro (hg | ⟨x, hx, hpx⟩)
            · exact Or.inl (Or.inl hg)
            · rcases List.mem_cons.mp hx with hx | hx
              · subst hx
                exact Or.inl (Or.inr (by tauto))
              · exact Or.inr ⟨x, hx, hpx⟩


/-- C3 (amended): for a wire object accepted by `Graph.import` whose
connections all join two distinct indices, the round trip through `export`
preserves the vertex list exactly and the connection set up to orientation
of each unordered edge. -/
theorem claim_C3 (N : GraphData) (g : Graph)
    (hacc : Graph.importGraph N = .ok g)
    (hnsl : ∀ e ∈ N.connections, e.fromIdx.num ≠ e.toIdx.num) :
    ∃ M : GraphData, g.exportGraph = .ok M ∧
      M.vertices = N.vertices ∧
      (∀ e ∈ M.connections, e ∈ N.connections ∨
        (⟨e.toIdx, e.fromIdx⟩ : EdgeData) ∈ N.connections) ∧
      (∀ e ∈ N.connections, e ∈ M.connections ∨
        (⟨e.toIdx, e.fromIdx⟩ : EdgeData) ∈ M.connections) := by
  unfold Graph.importGraph at hacc
  cases hIV : importVerts N.vertices {} with
  | mk g0 err0 =>
    cases err0 with
    | some e0 =>
      simp only [hIV] at hacc
      cases hacc
    | none =>
      simp only [hIV] at hacc
      cases hIE : importEdges N.connections g0 with
      | mk g1 err1 =>
        cases err1 with
        | some e1 =>
          simp only [hIE] at hacc
          cases hacc
        | none =>
          simp only [hIE] at hacc
          cases hacc
          obtain ⟨hintsV, hkeys0, hWF0f, hno0f⟩ :=
            importVerts_spec N.vertices {} g0 hIV
          have hWF0 : WF g0 := hWF0f WF_empty
          have hno0 : ∀ v : VId, g0.nbrsOf v = [] :=
            hno0f (fun v => rfl)
          obtain ⟨hWFg, hverts, hintsE, hNSLf, hiffE⟩ :=
            importEdges_spec N.connections g0 g hWF0 hIE
          have hNSL : ∀ v : VId, v ∉ g.nbrsOf v := by
            apply hNSLf hnsl
            intro v hv
            rw [hno0 v] at hv
            exact absurd hv (List.not_mem_nil v)
          have hEdgeChar : ∀ i j : Int, g.hasEdgeI i j = true ↔
              ∃ e ∈ N.connections,
                (e.fromIdx.num = i ∧ e.toIdx.num = j) ∨
                (e.fromIdx.num = j ∧ e.toIdx.num = i) := by
            intro i j
            rw [hiffE i j, hasEdgeI_noEdges hno0 i j]
            simp
          obtain ⟨conns, hconns, hsound, hcover⟩ :=
            export_edges g hWFg hNSL
          have hexp : g.exportGraph = .ok
              { vertices := g.vertexKeys.map (fun i : Int => (i : ℚ)),
                connections := conns.map
                  (fun e => { fromIdx := (e.1 : ℚ), toIdx := (e.2 : ℚ) }) }
              := by
            unfold Graph.exportGraph
            rw [hconns]
          refine ⟨_, hexp, ?_, ?_, ?_⟩
          · show g.vertexKeys.map (fun i : Int => (i : ℚ)) = N.vertices
            have hkeys1 : g.vertexKeys = g0.vertexKeys := by
              show g.verts.map _ = g0.verts.map _
              rw [hverts]
            have hcast : ∀ l : List ℚ, (∀ q ∈ l, q.isInt = true) →
                (l.map (fun q => q.num)).map (fun i : Int => (i : ℚ)) = l := by
              intro l
              induction l with
              | nil => intro h2; rfl
              | cons q rest ih =>
                intro h2
                simp only [List.map_cons]
                rw [ratIntCast_num (h2 q (List.mem_cons_self q rest)),
                  ih (fun p hp => h2 p (List.mem_cons_of_mem _ hp))]
            rw [hkeys1, hkeys0,
              show ({} : Graph).vertexKeys = ([] : List Int) from rfl,
              List.nil_append]
            exact hcast N.vertices hintsV
          · intro e' he'
            obtain ⟨p, hp, hpe⟩ := List.mem_map.mp he'
            have hedge := hsound p hp
            obtain ⟨e, he, hmatch⟩ := (hEdgeChar p.1 p.2).mp hedge
            obtain ⟨hfi, hti⟩ := hintsE e he
            rcases hmatch with ⟨h1, h2⟩ | ⟨h1, h2⟩
            · left
              have : e' = e := by
                rw [← hpe]
                show EdgeData.mk (p.1 : ℚ) (p.2 : ℚ) = e
                rw [← h1, ← h2, ratIntCast_num hfi, ratIntCast_num hti]
              rw [this]
              exact he
            · right
              have : (⟨e'.toIdx, e'.fromIdx⟩ : EdgeData) = e := by
                rw [← hpe]
                show EdgeData.mk (p.2 : ℚ) (p.1 : ℚ) = e
                rw [← h1, ← h2, ratIntCast_num hfi, ratIntCast_num hti]
              rw [this]
              exact he
          · intro e he
            obtain ⟨hfi, hti⟩ := hintsE e he
            have hedge : g.hasEdgeI e.fromIdx.num e.toIdx.num = true :=
              (hEdgeChar e.fromIdx.num e.toIdx.num).mpr
                ⟨e, he, Or.inl ⟨rfl, rfl⟩⟩
            rcases hcover e.fromIdx.num e.toIdx.num hedge with hc | hc
            · left
              refine List.mem_map.mpr ⟨(e.fromIdx.num, e.toIdx.num), hc, ?_⟩
              show EdgeData.mk ((e.fromIdx.num : Int) : ℚ)
                ((e.toIdx.num : Int) : ℚ) = e
              rw [ratIntCast_num hfi, ratIntCast_num hti]
            · right
              refine List.mem_map.mpr ⟨(e.toIdx.num, e.fromIdx.num), hc, ?_⟩
              show EdgeData.mk ((e.toIdx.num : Int) : ℚ)
                ((e.fromIdx.num : Int) : ℚ) = ⟨e.toIdx, e.fromIdx⟩
              rw [ratIntCast_num hfi, ratIntCast_num hti]


/-- C3 counterexample: the wire object with the single vertex 1 and the
single connection 1-1 is accepted by `Graph.import` (the self-loop slips
through `addEdge`), but `export` returns an empty connection list: the
traversal never emits a self-loop, so the edge sets differ. -/
theorem claim_C3_counterexample :
    Graph.importGraph selfLoopData =
      .ok ⟨[(1, 0)], [(0, 1)], [(0, [0])], 1⟩ ∧
    (⟨[(1, 0)], [(0, 1)], [(0, [0])], 1⟩ : Graph).exportGraph =
      .ok ⟨[(1 : ℚ)], []⟩ ∧
    selfLoopData.connections = [⟨1, 1⟩] := by
  refine ⟨by decide, by decide, by decide⟩

/-- Concrete use of `claim_C3`: the two-vertex one-edge wire object round
trips. -/
theorem claim_C3_witness :
    ∃ M : GraphData,
      (⟨[(1, 0), (2, 1)], [(0, 1), (1, 2)], [(0, [1]), (1, [0])], 2⟩ :
        Graph).exportGraph = .ok M ∧
      M.vertices = (⟨[1, 2], [⟨1, 2⟩]⟩ : GraphData).vertices ∧
      (∀ e ∈ M.connections,
        e ∈ (⟨[1, 2], [⟨1, 2⟩]⟩ : GraphData).connections ∨
        (⟨e.toIdx, e.fromIdx⟩ : EdgeData) ∈
          (⟨[1, 2], [⟨1, 2⟩]⟩ : GraphData).connections) ∧
      (∀ e ∈ (⟨[1, 2], [⟨1, 2⟩]⟩ : GraphData).connections,
        e ∈ M.connections ∨
        (⟨e.toIdx, e.fromIdx⟩ : EdgeData) ∈ M.connections) :=
  claim_C3 ⟨[1, 2], [⟨1, 2⟩]⟩
    ⟨[(1, 0), (2, 1)], [(0, 1), (1, 2)], [(0, [1]), (1, [0])], 2⟩
    (by decide) (by decide)

end GraphAnalyzer
